import Mathlib

/-!
Shallow embedding of the sdag consensus core (src/src of the repository):
the main-chain engine (main_chain.rs), the joint cache and its fast
ancestry rejections (cache/joint_data.rs), the serial-conflict detector
(serial_check.rs), the business worker (business/mod.rs), the
finalization pipeline (finalization.rs) and the KV store stubs
(kv_store.rs), together with theorems settling the frozen claims.

Modelling conventions, used throughout and noted again at each definition
where they matter:
  * Cache reads (`CachedJoint::read`) are modelled as total lookups in a
    function `Cache := String → UnitData`; the Rust code treats a failed
    read as a fatal error, which is outside the claims considered here.
  * Loops over the DAG carry an explicit fuel (natural number) because an
    arbitrary model graph need not be acyclic; theorems either hold for
    every fuel or hypothesise that the loop drained its queue, which is
    how the Rust loop always exits.
  * A Rust `Vec` used as a stack (`pop` from the back) is represented as
    a Lean list with the top of the stack at the head.
-/

set_option maxHeartbeats 1000000

deriving instance DecidableEq for Except

/-- Modelled from the spec: the `JointSequence` enumeration of crate
`joint` (the crate root is not under src/); the spec lists the sequence
values Good, TempBad, NonserialBad, FinalBad, NoCommission. -/
inductive JointSequence where
  | Good
  | TempBad
  | NonserialBad
  | FinalBad
  | NoCommission
deriving DecidableEq, Repr

/-- Modelled from the spec: the `Level` type of crate `joint` (not under
src/). A level is an optional integer: `none` models the not-yet-set
(invalid) value. Comparisons follow the NaN-like discipline visible in
the source (`is_on_main_chain` is false on fresh joints, comparisons with
an unset level are false, and sorting unset levels is `unreachable!`):
any comparison involving `none` is false. `MINIMUM` is `-1` ("init it as
-1 then the genesis min_wl = 0 can go forward"), `ZERO` is `0`. -/
abbrev Level := Option Int

/-- `Level::is_valid`: the level has been set. -/
def lvl_valid (l : Level) : Bool := l.isSome

/-- `Level == Level` (NaN-like: false when either side is unset). -/
def lvl_eq : Level → Level → Bool
  | some a, some b => a == b
  | _, _ => false

/-- `Level < Level` (NaN-like: false when either side is unset). -/
def lvl_lt : Level → Level → Bool
  | some a, some b => decide (a < b)
  | _, _ => false

/-- `Level <= Level` (NaN-like: false when either side is unset). -/
def lvl_le : Level → Level → Bool
  | some a, some b => decide (a ≤ b)
  | _, _ => false

/-- `Level + 1`, used when the stable tip advances by one mci. -/
def lvl_add1 : Level → Level
  | some a => some (a + 1)
  | none => none

/-- `Level + n` (iterated `lvl_add1`), used to state how far the stable
mci advanced after several promotions. -/
def lvl_addN (l : Level) (n : Nat) : Level :=
  match l with
  | some a => some (a + n)
  | none => none

/-- `Level::value()` (the underlying index as a machine word; the code
only calls it on valid non-negative levels). -/
def lvl_value (l : Level) : Nat :=
  match l with
  | some a => a.toNat
  | none => 0

/-- The per-unit record of a joint cache entry: the semantic fields of
the unit (`joint.unit` of cache/joint_data.rs) together with its
`JointProperty` record and its resolved parent/children edges, flattened
into one structure. `parents`, `children` and `best_parent_unit` hold
unit hashes; reading them goes back through the cache. -/
structure UnitData where
  unit : String
  parents : List String
  children : List String
  best_parent_unit : String
  authors : List String
  level : Level
  wl : Level
  min_wl : Level
  mci : Level
  limci : Level
  sub_mci : Level
  is_stable : Bool
  is_wl_increased : Bool
  is_min_wl_increased : Bool
  sequence : JointSequence
  ball : Option String
  content_hash : Option String
  msg_count : Nat
deriving DecidableEq, Repr

/-- The joint cache, modelled as a total lookup from unit hash to its
cache entry (`SDAG_CACHE.get_joint(..).read()` modelled as total; a
failed read is fatal in the Rust code). -/
abbrev Cache := String → UnitData

/-- A cache is well-keyed when each entry records its own key as its
unit hash; this is an invariant of `SDAG_CACHE` (entries are inserted
under their unit hash). -/
def WellKeyed (g : Cache) : Prop := ∀ h : String, (g h).unit = h

/-- `is_on_main_chain` (cache/joint_data.rs): `props.mci == props.limci`
under the NaN-like `Level` equality. -/
def is_on_main_chain (u : UnitData) : Bool := lvl_eq u.mci u.limci

/-- Membership of a `Vec<RcuReader<JointData>>` via the `PartialEq`
of `JointData`, which compares unit hashes only. -/
def contains_unit (l : List UnitData) (j : UnitData) : Bool :=
  l.any (fun x => x.unit == j.unit)

/-! ### A small sorting library (mirrors `sort_by` / `sort` call sites) -/

/-- Insert into a sorted list according to a boolean `le`. -/
def insert_le {α : Type} (le : α → α → Bool) (a : α) : List α → List α
  | [] => [a]
  | b :: l => if le a b then a :: b :: l else b :: insert_le le a l

/-- Insertion sort according to a boolean `le`; models the stable sorts
(`Vec::sort`, `Vec::sort_by`) used by the source. -/
def sort_le {α : Type} (le : α → α → Bool) : List α → List α
  | [] => []
  | a :: l => insert_le le a (sort_le le l)

/-- Strict lexicographic order on character sequences; the order in
which Rust sorts `Vec<String>` of hashes. -/
def chars_lt : List Char → List Char → Bool
  | [], [] => false
  | [], _ :: _ => true
  | _ :: _, [] => false
  | a :: as, b :: bs => if a < b then true else if b < a then false else chars_lt as bs

/-- String `<` as lexicographic order on the underlying characters. -/
def str_lt (a b : String) : Bool := chars_lt a.data b.data

/-- String `<=`, the order used when sorting vectors of hashes. -/
def str_le (a b : String) : Bool := a == b || str_lt a b

theorem chars_lt_trans : ∀ a b c, chars_lt a b = true → chars_lt b c = true →
    chars_lt a c = true := by
  intro a
  induction a with
  | nil =>
    intro b c hab hbc
    cases b with
    | nil => simp [chars_lt] at hab
    | cons x xs =>
      cases c with
      | nil => simp [chars_lt] at hbc
      | cons y ys => simp [chars_lt]
  | cons x xs ih =>
    intro b c hab hbc
    cases b with
    | nil => simp [chars_lt] at hab
    | cons y ys =>
      cases c with
      | nil => simp [chars_lt] at hbc
      | cons z zs =>
        simp only [chars_lt] at hab hbc ⊢
        by_cases hxy : x < y
        · by_cases hyz : y < z
          · simp [lt_trans hxy hyz]
          · by_cases hzy : z < y
            · simp [hyz, hzy] at hbc
            · have hyzeq : y = z := le_antisymm (not_lt.mp hzy) (not_lt.mp hyz)
              subst hyzeq
              simp [hxy]
        · by_cases hyx : y < x
          · simp [hxy, hyx] at hab
          · have hxyeq : x = y := le_antisymm (not_lt.mp hyx) (not_lt.mp hxy)
            subst hxyeq
            simp only [if_neg (lt_irrefl x)] at hab
            by_cases hyz : x < z
            · simp [hyz]
            · by_cases hzy : z < x
              · simp [hyz, hzy] at hbc
              · have : x = z := le_antisymm (not_lt.mp hzy) (not_lt.mp hyz)
                subst this
                simp only [if_neg (lt_irrefl x)] at hbc ⊢
                exact ih ys zs hab hbc

theorem chars_lt_total : ∀ a b, a = b ∨ chars_lt a b = true ∨ chars_lt b a = true := by
  intro a
  induction a with
  | nil =>
    intro b
    cases b with
    | nil => exact Or.inl rfl
    | cons y ys => exact Or.inr (Or.inl (by simp [chars_lt]))
  | cons x xs ih =>
    intro b
    cases b with
    | nil => exact Or.inr (Or.inr (by simp [chars_lt]))
    | cons y ys =>
      by_cases hxy : x < y
      · exact Or.inr (Or.inl (by simp [chars_lt, hxy]))
      · by_cases hyx : y < x
        · exact Or.inr (Or.inr (by simp [chars_lt, hyx, asymm hyx]))
        · have hxyeq : x = y := le_antisymm (not_lt.mp hyx) (not_lt.mp hxy)
          subst hxyeq
          rcases ih ys with h | h | h
          · exact Or.inl (by rw [h])
          · exact Or.inr (Or.inl (by simp [chars_lt, h]))
          · exact Or.inr (Or.inr (by simp [chars_lt, h]))

theorem str_le_trans : ∀ x y z, str_le x y = true → str_le y z = true →
    str_le x z = true := by
  intro x y z hxy hyz
  simp only [str_le, Bool.or_eq_true, beq_iff_eq] at hxy hyz ⊢
  rcases hxy with rfl | hxy
  · exact hyz
  · rcases hyz with rfl | hyz
    · exact Or.inr hxy
    · exact Or.inr (chars_lt_trans _ _ _ hxy hyz)

theorem str_le_total : ∀ x y, str_le x y = true ∨ str_le y x = true := by
  intro x y
  simp only [str_le, Bool.or_eq_true, beq_iff_eq]
  rcases chars_lt_total x.data y.data with h | h | h
  · exact Or.inl (Or.inl (String.ext h))
  · exact Or.inl (Or.inr h)
  · exact Or.inr (Or.inr h)

theorem insert_le_perm {α : Type} (le : α → α → Bool) (a : α) (l : List α) :
    List.Perm (insert_le le a l) (a :: l) := by
  induction l with
  | nil => simp [insert_le]
  | cons b t ih =>
    simp only [insert_le]
    by_cases h : le a b = true
    · simp [h]
    · simp only [h, if_false]
      exact List.Perm.trans (List.Perm.cons b ih) (List.Perm.swap a b t)

theorem sort_le_perm {α : Type} (le : α → α → Bool) (l : List α) :
    List.Perm (sort_le le l) l := by
  induction l with
  | nil => simp [sort_le]
  | cons a t ih =>
    simp only [sort_le]
    exact List.Perm.trans (insert_le_perm le a (sort_le le t)) (List.Perm.cons a ih)

theorem insert_le_pairwise {α : Type} (le : α → α → Bool) (a : α) (l : List α)
    (htrans : ∀ x y z, le x y = true → le y z = true → le x z = true)
    (htot : ∀ x ∈ l, le a x = true ∨ le x a = true)
    (h : List.Pairwise (fun x y => le x y = true) l) :
    List.Pairwise (fun x y => le x y = true) (insert_le le a l) := by
  induction l with
  | nil => simp [insert_le]
  | cons b t ih =>
    simp only [insert_le]
    rcases h with _ | ⟨hb, ht⟩
    by_cases hab : le a b = true
    · simp only [hab, if_true]
      refine List.Pairwise.cons ?_ (List.Pairwise.cons hb ht)
      intro x hx
      rcases List.mem_cons.mp hx with rfl | hx
      · exact hab
      · exact htrans a b x hab (hb x hx)
    · simp only [hab, if_false]
      rcases htot b (List.mem_cons_self b t) with h1 | h1
      · exact absurd h1 hab
      · refine List.Pairwise.cons ?_ (ih (fun x hx => htot x (List.mem_cons_of_mem _ hx)) ht)
        intro x hx
        have hperm := insert_le_perm le a t
        have hx' : x ∈ a :: t := hperm.mem_iff.mp hx
        rcases List.mem_cons.mp hx' with rfl | hx'
        · exact h1
        · exact hb x hx'

theorem sort_le_pairwise {α : Type} (le : α → α → Bool) (l : List α)
    (htrans : ∀ x y z, le x y = true → le y z = true → le x z = true)
    (htot : ∀ x ∈ l, ∀ y ∈ l, le x y = true ∨ le y x = true) :
    List.Pairwise (fun x y => le x y = true) (sort_le le l) := by
  induction l with
  | nil => simp [sort_le]
  | cons a t ih =>
    simp only [sort_le]
    have hmem : ∀ x ∈ sort_le le t, x ∈ t := fun x hx => (sort_le_perm le t).mem_iff.mp hx
    refine insert_le_pairwise le a (sort_le le t) htrans ?_ ?_
    · intro x hx
      exact htot a (List.mem_cons_self a t) x (List.mem_cons_of_mem _ (hmem x hx))
    · exact ih (fun x hx y hy =>
        htot x (List.mem_cons_of_mem _ hx) y (List.mem_cons_of_mem _ hy))

/-! ### KV store (kv_store.rs) — claim C10 -/

/-- The joint JSON blob stored under the `joints` tree: the fields of it
the loader consumes. -/
structure StoredJoint where
  unit : String
  parent_units : List String
deriving DecidableEq, Repr

/-- The property record stored under the `properties` tree: the field of
it the loader consumes besides the raw record itself. -/
structure StoredProps where
  best_parent_unit : String
deriving DecidableEq, Repr

/-- `KvStore` (kv_store.rs): two logical tables, keyed by unit hash. -/
structure KvStore where
  joints : String → Option StoredJoint
  properties : String → Option StoredProps

/-- `KvStore::is_joint_exist` (kv_store.rs lines 47-49): a stub that
always answers `false`. -/
def KvStore.is_joint_exist (_kv : KvStore) (_key : String) : Except String Bool :=
  Except.ok false

/-- `KvStore::read_joint` (kv_store.rs lines 51-57). -/
def KvStore.read_joint (kv : KvStore) (key : String) : Except String StoredJoint :=
  match kv.joints key with
  | some j => Except.ok j
  | none => Except.error "joint not exist in KV"

/-- `KvStore::read_joint_children` (kv_store.rs lines 59-61): a stub
that always answers the empty list. -/
def KvStore.read_joint_children (_kv : KvStore) (_key : String) :
    Except String (List String) :=
  Except.ok []

/-- `KvStore::read_joint_property` (kv_store.rs lines 63-69). -/
def KvStore.read_joint_property (kv : KvStore) (key : String) :
    Except String StoredProps :=
  match kv.properties key with
  | some p => Except.ok p
  | none => Except.error "joint property not exist in KV"

/-- The parts of a `JointData` that `load_from_kv` reconstructs and that
claim C10 inspects. -/
structure LoadedJointData where
  joint : StoredJoint
  parents : List String
  children : List String
  best_parent : String
deriving DecidableEq, Repr

/-- `JointData::is_free` (cache/joint_data.rs line 301-303): no
children. -/
def LoadedJointData.is_free (j : LoadedJointData) : Bool := j.children.isEmpty

/-- `JointData::load_from_kv` (cache/joint_data.rs lines 481-515):
reads the joint, its (empty) children list and its property record from
the store; parent and children hashes are kept as keys into the cache. -/
def load_from_kv (kv : KvStore) (key : String) : Except String LoadedJointData :=
  match kv.read_joint key with
  | Except.error e => Except.error e
  | Except.ok joint =>
    match kv.read_joint_children key with
    | Except.error e => Except.error e
    | Except.ok children =>
      match kv.read_joint_property key with
      | Except.error e => Except.error e
      | Except.ok props =>
        Except.ok { joint := joint, parents := joint.parent_units,
                    children := children, best_parent := props.best_parent_unit }

/-! ### Finalization (finalization.rs) — claims C6 and C7 -/

/-- `get_similar_mcis` inner loop (finalization.rs lines 138-149): the
divisor walks 10, 100, 1000, …; the fuel only bounds the number of
iterations (the Rust loop exits as soon as the divisor no longer divides
`mci`, which happens after at most `log10 mci + 1` iterations). -/
def get_similar_mcis_loop : Nat → Nat → Nat → List Nat
  | 0, _, _ => []
  | fuel + 1, mci, devisor =>
    if mci % devisor != 0 || mci == 0 then []
    else (mci - devisor) :: get_similar_mcis_loop fuel mci (devisor * 10)

/-- `get_similar_mcis` (finalization.rs lines 138-149). -/
def get_similar_mcis (mci : Nat) : List Nat :=
  get_similar_mcis_loop (mci + 1) mci 10

/-- The per-mci loop body of `calc_skiplist` (finalization.rs lines
162-167): look up the main-chain unit of every target mci, failing when
one is missing. `mcIndex` models `SDAG_CACHE.get_mc_unit_hash`. -/
def lookup_mc_units (mcIndex : Nat → Option String) : List Nat → Except String (List String)
  | [] => Except.ok []
  | t :: ts =>
    match mcIndex t with
    | none => Except.error "no unit hash for mci"
    | some u =>
      match lookup_mc_units mcIndex ts with
      | Except.error e => Except.error e
      | Except.ok rest => Except.ok (u :: rest)

/-- `calc_skiplist` (finalization.rs lines 151-171): empty off the main
chain; otherwise the main-chain units at the similar mcis, sorted
ascending. -/
def calc_skiplist (mcIndex : Nat → Option String) (jd : UnitData) :
    Except String (List String) :=
  if !is_on_main_chain jd then Except.ok []
  else
    match lookup_mc_units mcIndex (get_similar_mcis (lvl_value jd.mci)) with
    | Except.error e => Except.error e
    | Except.ok units => Except.ok (sort_le str_le units)

/-- The parent/skiplist ball-collection loops of `calc_ball`
(finalization.rs lines 86-112): collect each unit's ball, failing on the
first unit that has none. -/
def collect_balls (g : Cache) : List String → Except String (List String)
  | [] => Except.ok []
  | p :: ps =>
    match (g p).ball with
    | none => Except.error "no ball for unit"
    | some b =>
      match collect_balls g ps with
      | Except.error e => Except.error e
      | Except.ok rest => Except.ok (b :: rest)

/-- `calc_ball` (finalization.rs lines 81-136). `ballHash` models
`object_hash::calc_ball_hash`, a deterministic hash of the quadruple
(unit hash, sorted parent balls, sorted skiplist balls, bad flag); the
crate `object_hash` is not under src/, so the hash itself is a
parameter. The mismatch branch of the source only logs; the computed
ball is returned either way. -/
def calc_ball (g : Cache)
    (ballHash : String → List String → List String → Bool → String)
    (jd : UnitData) (skiplist : List String) : Except String String :=
  match collect_balls g jd.parents with
  | Except.error e => Except.error e
  | Except.ok parent_balls =>
    match collect_balls g skiplist with
    | Except.error e => Except.error e
    | Except.ok skiplist_balls =>
      Except.ok (ballHash jd.unit (sort_le str_le parent_balls)
        (sort_le str_le skiplist_balls) (jd.sequence != JointSequence.Good))

/-- The observable outcome of `finalize_joint` on the joint record. -/
structure FinalizedJoint where
  skiplist_units : List String
  ball : Option String
  msg_count : Nat
  content_hash : Option String
  is_stable : Bool
deriving DecidableEq, Repr

/-- `finalize_joint` (finalization.rs lines 49-79): compute the
skiplist, compute the ball and store it on the joint (overwriting any
received ball), clear the messages of a `NoCommission` unit (installing
a content-hash commitment first), and mark the joint stable.
`contentHashFn` models `Unit::get_unit_content_hash` (crate not under
src/). -/
def finalize_joint (g : Cache) (mcIndex : Nat → Option String)
    (ballHash : String → List String → List String → Bool → String)
    (contentHashFn : UnitData → String) (jd : UnitData) :
    Except String FinalizedJoint :=
  match calc_skiplist mcIndex jd with
  | Except.error e => Except.error e
  | Except.ok skiplist =>
    match calc_ball g ballHash jd skiplist with
    | Except.error e => Except.error e
    | Except.ok ball =>
      let cleared := jd.sequence == JointSequence.NoCommission
      Except.ok
        { skiplist_units := skiplist
          ball := some ball
          msg_count := if cleared then 0 else jd.msg_count
          content_hash :=
            if cleared then
              some (match jd.content_hash with
                    | some c => c
                    | none => contentHashFn jd)
            else jd.content_hash
          is_stable := true }

/-! ### Claim C10 -/

/-- C10: for every key, `KvStore::read_joint_children` returns the empty
list and `KvStore::is_joint_exist` returns false; consequently every
`JointData` reconstructed by `load_from_kv` has an empty children list,
and `is_free()` returns true for it regardless of the children it had
before eviction. -/
theorem C10_kv_children_stub_forces_free :
    ∀ (kv : KvStore) (key : String),
      kv.read_joint_children key = Except.ok [] ∧
      kv.is_joint_exist key = Except.ok false ∧
      ∀ jd : LoadedJointData, load_from_kv kv key = Except.ok jd →
        jd.children = [] ∧ jd.is_free = true := by
  intro kv key
  refine ⟨rfl, rfl, ?_⟩
  intro jd h
  cases hj : kv.joints key with
  | none =>
    simp [load_from_kv, KvStore.read_joint, hj] at h
  | some j =>
    cases hp : kv.properties key with
    | none =>
      simp [load_from_kv, KvStore.read_joint, KvStore.read_joint_children,
        KvStore.read_joint_property, hj, hp] at h
    | some p =>
      simp only [load_from_kv, KvStore.read_joint, KvStore.read_joint_children,
        KvStore.read_joint_property, hj, hp, Except.ok.injEq] at h
      subst h
      simp [LoadedJointData.is_free]

/-- A tiny concrete store holding one joint, for the C10 witness. -/
def kvW : KvStore :=
  { joints := fun k => if k = "u1" then some { unit := "u1", parent_units := [] } else none
    properties := fun k => if k = "u1" then some { best_parent_unit := "g" } else none }

/-- The joint `load_from_kv` reconstructs from `kvW`. -/
def jdW : LoadedJointData :=
  { joint := { unit := "u1", parent_units := [] }, parents := [],
    children := [], best_parent := "g" }

theorem C10_kv_children_stub_forces_free_witness :
    load_from_kv kvW "u1" = Except.ok jdW ∧ (jdW.children = [] ∧ jdW.is_free = true) :=
  ⟨rfl, (C10_kv_children_stub_forces_free kvW "u1").2.2 jdW rfl⟩

/-! ### Claim C7 -/

/-- The main-chain index used in the C7 counterexample: main-chain units
exist at mcis 990, 900 and 0. -/
def mcIndex7 : Nat → Option String := fun m =>
  if m = 990 then some "m990"
  else if m = 900 then some "m900"
  else if m = 0 then some "m0"
  else none

/-- A main-chain unit at mci 1000. -/
def jd1000 : UnitData :=
  { unit := "u1000", parents := [], children := [], best_parent_unit := "",
    authors := [], level := some 1500, wl := some 1400, min_wl := some 1300,
    mci := some 1000, limci := some 1000, sub_mci := some 0, is_stable := true,
    is_wl_increased := false, is_min_wl_increased := false,
    sequence := JointSequence.Good, ball := none, content_hash := none, msg_count := 0 }

/-- A main-chain unit at mci 999. -/
def jd999 : UnitData :=
  { jd1000 with unit := "u999", mci := some 999, limci := some 999 }

/-- C7 counterexample: at mci = 1000 the computed skiplist is the sorted
main-chain units of mcis 990, 900 and 0 — `get_similar_mcis(1000)`
pushes 1000-10 = 990 as well — and not, as the claim states, only those
of mcis 900 and 0. -/
theorem C7_counterexample :
    calc_skiplist mcIndex7 jd1000 = Except.ok ["m0", "m900", "m990"] ∧
    calc_skiplist mcIndex7 jd1000 ≠ Except.ok (sort_le str_le ["m900", "m0"]) ∧
    get_similar_mcis 1000 = [990, 900, 0] := by
  refine ⟨by decide, by decide, by decide⟩

/-- C7 amended: for a main-chain unit at mci = 1000 the computed
skiplist consists of the main-chain units at mcis 990, 900 and 0, sorted
ascending; for a main-chain unit at mci = 999 the computed skiplist is
empty. -/
theorem C7_skiplist_at_1000_and_999 :
    ∀ (mcIndex : Nat → Option String) (jd jd9 : UnitData) (u990 u900 u0 : String),
      is_on_main_chain jd = true → jd.mci = some 1000 →
      mcIndex 990 = some u990 → mcIndex 900 = some u900 → mcIndex 0 = some u0 →
      calc_skiplist mcIndex jd = Except.ok (sort_le str_le [u990, u900, u0]) ∧
      (is_on_main_chain jd9 = true → jd9.mci = some 999 →
        calc_skiplist mcIndex jd9 = Except.ok []) := by
  intro mcIndex jd jd9 u990 u900 u0 hmc hmci h990 h900 h0
  constructor
  · have hsim : get_similar_mcis (lvl_value (some 1000)) = [990, 900, 0] := by decide
    simp [calc_skiplist, hmc, hmci, hsim, lookup_mc_units, h990, h900, h0]
  · intro hmc9 hmci9
    have hsim : get_similar_mcis (lvl_value (some 999)) = [] := by decide
    simp [calc_skiplist, hmc9, hmci9, hsim, lookup_mc_units, sort_le]

theorem C7_skiplist_at_1000_and_999_witness :
    calc_skiplist mcIndex7 jd1000 = Except.ok (sort_le str_le ["m990", "m900", "m0"]) ∧
    calc_skiplist mcIndex7 jd999 = Except.ok [] := by
  have h := C7_skiplist_at_1000_and_999 mcIndex7 jd1000 jd999 "m990" "m900" "m0"
    (by decide) (by decide) (by decide) (by decide) (by decide)
  exact ⟨h.1, h.2 (by decide) (by decide)⟩

/-! ### Claim C6 -/

theorem collect_balls_ok (g : Cache) (l : List String)
    (h : ∀ p ∈ l, ((g p).ball).isSome = true) :
    collect_balls g l = Except.ok (l.map (fun p => ((g p).ball).getD "")) := by
  induction l with
  | nil => rfl
  | cons p ps ih =>
    have hp := h p (List.mem_cons_self p ps)
    cases hb : (g p).ball with
    | none => rw [hb] at hp; simp at hp
    | some b =>
      simp only [collect_balls, hb, ih (fun q hq => h q (List.mem_cons_of_mem _ hq)),
        List.map_cons, Option.getD_some]

theorem collect_balls_err (g : Cache) (l : List String)
    (h : ∃ p ∈ l, (g p).ball = none) :
    collect_balls g l = Except.error "no ball for unit" := by
  induction l with
  | nil => simp at h
  | cons p ps ih =>
    rcases h with ⟨q, hq, hqnone⟩
    rcases List.mem_cons.mp hq with rfl | hq
    · simp [collect_balls, hqnone]
    · cases hb : (g p).ball with
      | none => simp [collect_balls, hb]
      | some b => simp [collect_balls, hb, ih ⟨q, hq, hqnone⟩]

theorem calc_skiplist_ball_irrel (mcIndex : Nat → Option String) (jd : UnitData)
    (r : Option String) :
    calc_skiplist mcIndex { jd with ball := r } = calc_skiplist mcIndex jd := by
  simp [calc_skiplist, is_on_main_chain]

theorem calc_ball_ball_irrel (g : Cache)
    (ballHash : String → List String → List String → Bool → String)
    (jd : UnitData) (sk : List String) (r : Option String) :
    calc_ball g ballHash { jd with ball := r } sk = calc_ball g ballHash jd sk := by
  simp [calc_ball]

/-- C6: `calc_ball` returns the ball hash computed from the unit hash,
the parent balls sorted ascending, the skiplist balls sorted ascending
and the flag `sequence != Good`; it returns an error exactly when some
parent or some skiplist unit does not yet have a ball (the first and
second conjuncts cover the two complementary cases); and
`finalize_joint` stores the computed ball on the joint whatever received
ball the joint carried. -/
theorem C6_calc_ball_spec :
    ∀ (g : Cache) (ballHash : String → List String → List String → Bool → String)
      (jd : UnitData) (skiplist : List String),
      ((∀ p ∈ jd.parents, ((g p).ball).isSome = true) →
       (∀ s ∈ skiplist, ((g s).ball).isSome = true) →
        calc_ball g ballHash jd skiplist =
          Except.ok (ballHash jd.unit
            (sort_le str_le (jd.parents.map (fun p => ((g p).ball).getD "")))
            (sort_le str_le (skiplist.map (fun s => ((g s).ball).getD "")))
            (jd.sequence != JointSequence.Good))) ∧
      (((∃ p ∈ jd.parents, (g p).ball = none) ∨ (∃ s ∈ skiplist, (g s).ball = none)) →
        calc_ball g ballHash jd skiplist = Except.error "no ball for unit") ∧
      (∀ (mcIndex : Nat → Option String) (contentHashFn : UnitData → String)
         (received : Option String) (fj : FinalizedJoint),
        finalize_joint g mcIndex ballHash contentHashFn { jd with ball := received } =
          Except.ok fj →
        ∃ sk ballv, calc_skiplist mcIndex jd = Except.ok sk ∧
          calc_ball g ballHash jd sk = Except.ok ballv ∧ fj.ball = some ballv) := by
  intro g ballHash jd skiplist
  refine ⟨?_, ?_, ?_⟩
  · intro hp hs
    simp only [calc_ball, collect_balls_ok g jd.parents hp, collect_balls_ok g skiplist hs]
  · intro h
    rcases h with h | h
    · simp only [calc_ball, collect_balls_err g jd.parents h]
    · cases hcp : collect_balls g jd.parents with
      | error e =>
        have : ∃ p ∈ jd.parents, (g p).ball = none := by
          by_contra hno
          push_neg at hno
          have hall : ∀ p ∈ jd.parents, ((g p).ball).isSome = true := by
            intro p hp
            cases hb : (g p).ball with
            | none => exact absurd hb (hno p hp)
            | some b => rfl
          rw [collect_balls_ok g jd.parents hall] at hcp
          exact Except.noConfusion hcp
        simp only [calc_ball, collect_balls_err g jd.parents this]
      | ok pbs =>
        simp only [calc_ball, hcp, collect_balls_err g skiplist h]
  · intro mcIndex contentHashFn received fj hfin
    cases hsk : calc_skiplist mcIndex { jd with ball := received } with
    | error e => simp [finalize_joint, hsk] at hfin
    | ok sk =>
      cases hb : calc_ball g ballHash { jd with ball := received } sk with
      | error e => simp [finalize_joint, hsk, hb] at hfin
      | ok ballv =>
        refine ⟨sk, ballv, ?_, ?_, ?_⟩
        · rw [← calc_skiplist_ball_irrel mcIndex jd received]; exact hsk
        · rw [← calc_ball_ball_irrel g ballHash jd sk received]; exact hb
        · simp only [finalize_joint, hsk, hb, Except.ok.injEq] at hfin
          subst hfin
          rfl

/-- A baseline cache entry used to build the small concrete graphs of
the witness theorems. -/
def baseUnit (h : String) : UnitData :=
  { unit := h, parents := [], children := [], best_parent_unit := "",
    authors := [], level := some 0, wl := some 0, min_wl := some 0,
    mci := none, limci := none, sub_mci := none, is_stable := false,
    is_wl_increased := false, is_min_wl_increased := false,
    sequence := JointSequence.Good, ball := none, content_hash := none,
    msg_count := 0 }

/-- A concrete cache for the C6 witness: two finalized parents. -/
def g6 : Cache := fun h =>
  if h = "p1" then { baseUnit "p1" with ball := some "b1" }
  else if h = "p2" then { baseUnit "p2" with ball := some "b2" }
  else baseUnit h

/-- A joint with two parents, off the main chain, for the C6 witness. -/
def jd6 : UnitData :=
  { baseUnit "u6" with parents := ["p1", "p2"], mci := some 5, limci := some 4 }

/-- A concrete ball-hash function for the C6 witness. -/
def bh6 : String → List String → List String → Bool → String :=
  fun u _ _ _ => String.append "ball-" u

theorem C6_calc_ball_spec_witness :
    calc_ball g6 bh6 jd6 ["p1"] =
      Except.ok (bh6 jd6.unit
        (sort_le str_le (jd6.parents.map (fun p => ((g6 p).ball).getD "")))
        (sort_le str_le (["p1"].map (fun s => ((g6 s).ball).getD "")))
        (jd6.sequence != JointSequence.Good)) ∧
    (∃ sk ballv, calc_skiplist mcIndex7 jd6 = Except.ok sk ∧
      calc_ball g6 bh6 jd6 sk = Except.ok ballv ∧
      ({ skiplist_units := [], ball := some "ball-u6", msg_count := 0,
         content_hash := none, is_stable := true } : FinalizedJoint).ball = some ballv) :=
  ⟨(C6_calc_ball_spec g6 bh6 jd6 ["p1"]).1 (by decide) (by decide),
   (C6_calc_ball_spec g6 bh6 jd6 []).2.2 mcIndex7 (fun _ => "ch") (some "recv")
     { skiplist_units := [], ball := some "ball-u6", msg_count := 0,
       content_hash := none, is_stable := true } (by decide)⟩

/-! ### Main-chain promotion (main_chain.rs) — claim C1 -/

theorem lvl_addN_zero (m : Level) : lvl_addN m 0 = m := by
  cases m <;> simp [lvl_addN]

theorem lvl_addN_add1 (m : Level) (k : Nat) :
    lvl_addN (lvl_add1 m) k = lvl_addN m (k + 1) := by
  cases m with
  | none => rfl
  | some a =>
    simp only [lvl_add1, lvl_addN, Option.some.injEq]
    push_cast
    ring

theorem lvl_addN_addN (m : Level) (a b : Nat) :
    lvl_addN (lvl_addN m a) b = lvl_addN m (a + b) := by
  cases m with
  | none => rfl
  | some x =>
    simp only [lvl_addN, Option.some.injEq]
    push_cast
    ring

/-- The inner promotion loop of `update_stable_main_chain`
(main_chain.rs lines 300-312), run for one end joint `mc_free_joint`:
pop the lowest remaining unstable main-chain joint, promote it with
`mci = stable mci + 1` while `min_wl > calc_max_alt_level`, and stop
(pushing the joint back) at the first joint failing the test.  The list
holds the unstable main chain lowest level first (the reverse of the
Rust `Vec`, whose `pop` removes the lowest remaining joint); `maxAlt`
abstracts `calc_max_alt_level`, which reads none of the properties that
promotion mutates (promotion writes only mci, sub_mci and limci).
Returns the `(joint, mci)` pairs handed to
`mark_main_chain_joint_stable` in order, the mci and the level of the
now-last stable joint, and the joints left unstable. -/
def update_stable_for_end (maxAlt : UnitData → UnitData → Level) (endJ : UnitData) :
    Level → Level → List UnitData →
    (List (UnitData × Level) × Level × Level × List UnitData)
  | stableMci, lastLevel, [] => ([], stableMci, lastLevel, [])
  | stableMci, lastLevel, c :: rest =>
    if lvl_lt (maxAlt c endJ) endJ.min_wl then
      let newMci := lvl_add1 stableMci
      let r := update_stable_for_end maxAlt endJ newMci c.level rest
      ((c, newMci) :: r.1, r.2)
    else
      ([], stableMci, lastLevel, c :: rest)

/-- The outer loop of `update_stable_main_chain` (main_chain.rs lines
297-313): the valid end joints are consumed lowest first, each driving
one run of the inner promotion loop over the remaining unstable chain. -/
def update_stable_loop (maxAlt : UnitData → UnitData → Level) :
    List UnitData → Level → Level → List UnitData →
    (List (UnitData × Level) × Level)
  | [], _stableMci, lastLevel, _unstable => ([], lastLevel)
  | endJ :: ends, stableMci, lastLevel, unstable =>
    let r := update_stable_for_end maxAlt endJ stableMci lastLevel unstable
    let rest := update_stable_loop maxAlt ends r.2.1 r.2.2.1 r.2.2.2
    (r.1 ++ rest.1, rest.2)

/-- `update_stable_main_chain` (main_chain.rs lines 280-316): reject an
empty unstable chain, select as end joints the unstable main-chain
joints with `is_min_wl_increased` and `min_wl` above the stable level
(selection uses the initial stable level: the `for` loop runs before any
promotion), then run the promotion loops.  Both lists are lowest level
first (the reverse of the Rust `Vec`s, whose `pop` removes the lowest
remaining joint); the returned pair is the list of promotions performed
and the final `last_stable_level`. -/
def update_stable_main_chain (maxAlt : UnitData → UnitData → Level)
    (stable_joint : UnitData) (unstable_mc_joints : List UnitData) :
    Except String (List (UnitData × Level) × Level) :=
  if unstable_mc_joints.isEmpty then Except.error "Empty unstable main chain"
  else
    let last_stable_level := stable_joint.level
    let end_joints := unstable_mc_joints.filter
      (fun j => j.is_min_wl_increased && lvl_lt last_stable_level j.min_wl)
    Except.ok (update_stable_loop maxAlt end_joints stable_joint.mci
      last_stable_level unstable_mc_joints)

/-- C1: for one end joint, the inner loop of `update_stable_main_chain`
walks the unstable main-chain joints from lowest to highest and promotes
exactly the longest prefix on which `end.min_wl > calc_max_alt_level(C, end)`
holds, giving the i-th promoted joint mci = previous stable mci + i + 1
(each promotion is one step of `previous stable mci + 1`); at the first
joint failing the test the loop stops, that joint stays unstable (it
heads the returned remainder), and the stable mci/level advance to the
last promoted joint. -/
theorem C1_promotion_exactly_while_min_wl_beats_alt :
    ∀ (maxAlt : UnitData → UnitData → Level) (endJ : UnitData)
      (m0 lvl0 : Level) (l : List UnitData),
      update_stable_for_end maxAlt endJ m0 lvl0 l =
        ((l.takeWhile (fun c => lvl_lt (maxAlt c endJ) endJ.min_wl)).zip
            ((List.range (l.takeWhile
              (fun c => lvl_lt (maxAlt c endJ) endJ.min_wl)).length).map
              (fun i => lvl_addN m0 (i + 1))),
         lvl_addN m0 (l.takeWhile (fun c => lvl_lt (maxAlt c endJ) endJ.min_wl)).length,
         (l.takeWhile (fun c => lvl_lt (maxAlt c endJ) endJ.min_wl)).foldl
           (fun _ c => c.level) lvl0,
         l.dropWhile (fun c => lvl_lt (maxAlt c endJ) endJ.min_wl)) := by
  intro maxAlt endJ m0 lvl0 l
  induction l generalizing m0 lvl0 with
  | nil => simp [update_stable_for_end, lvl_addN_zero]
  | cons c rest ih =>
    by_cases hc : lvl_lt (maxAlt c endJ) endJ.min_wl = true
    · simp only [List.takeWhile_cons, List.dropWhile_cons, hc, if_true,
        update_stable_for_end, ih (lvl_add1 m0) c.level,
        List.length_cons, List.range_succ_eq_map, List.map_cons, List.zip_cons_cons,
        List.foldl_cons, List.map_map]
      have h1 : lvl_add1 m0 = lvl_addN m0 (0 + 1) := by
        cases m0 <;> simp [lvl_add1, lvl_addN]
      rw [h1]
      have h2 : (fun i => lvl_addN (lvl_addN m0 (0 + 1)) (i + 1)) =
          ((fun i => lvl_addN m0 (i + 1)) ∘ Nat.succ) := by
        funext i
        simp only [Function.comp_apply, lvl_addN_addN]
        congr 1
        omega
      rw [h2, lvl_addN_addN]
      simp [Nat.add_comm]
    · simp [List.takeWhile_cons, List.dropWhile_cons, hc, update_stable_for_end,
        lvl_addN_zero]

/-! ### Alternative-branch bound (main_chain.rs `calc_max_alt_level`) — claim C2 -/

theorem lvl_lt_none_right (x : Level) : lvl_lt x none = false := by
  cases x <;> rfl

theorem lvl_lt_none_left (x : Level) : lvl_lt none x = false := by
  cases x <;> rfl

theorem lvl_lt_irrefl (x : Level) : lvl_lt x x = false := by
  cases x <;> simp [lvl_lt]

/-- The best-children descent of `calc_max_alt_level` (main_chain.rs
lines 137-169): starting from the alternative roots, walk down through
best children (children naming the current joint as best parent),
skipping any joint at or above the end joint's level, collecting every
`is_wl_increased` joint as an alternative candidate and tracking the
largest candidate level in `maxPoss` (initially the stable point's
level).  Stack top at the head; fuel bounds the loop. -/
def alt_descend (g : Cache) (end_level : Level) :
    Nat → List UnitData → List UnitData → Level → (List UnitData × Level)
  | 0, _, cands, maxPoss => (cands, maxPoss)
  | _fuel + 1, [], cands, maxPoss => (cands, maxPoss)
  | fuel + 1, j :: stack, cands, maxPoss =>
    if lvl_le end_level j.level then
      alt_descend g end_level fuel stack cands maxPoss
    else
      let cands2 := if j.is_wl_increased then cands ++ [j] else cands
      let maxPoss2 :=
        if j.is_wl_increased && lvl_lt maxPoss j.level then j.level else maxPoss
      let best_children := (j.children.map g).filter (fun c => c.best_parent_unit == j.unit)
      alt_descend g end_level fuel (best_children ++ stack) cands2 maxPoss2

/-- The restricted walk of `calc_max_alt_level` (main_chain.rs lines
179-202): a breadth-first walk up from the end joint through parents,
pruning at or below the stable point's level, raising `maxAlt` at every
visited joint that is an alternative candidate (matched by unit hash,
the `PartialEq` of `JointData`).  Fuel bounds the loop. -/
def alt_restrict (g : Cache) (stable_level : Level) (cands : List UnitData) :
    Nat → List UnitData → List String → Level → Level
  | 0, _, _, maxAlt => maxAlt
  | _fuel + 1, [], _, maxAlt => maxAlt
  | fuel + 1, j :: queue, visited, maxAlt =>
    if lvl_le j.level stable_level then
      alt_restrict g stable_level cands fuel queue visited maxAlt
    else
      let maxAlt2 := if contains_unit cands j && lvl_lt maxAlt j.level then j.level else maxAlt
      let st := j.parents.foldl
        (fun (s : List UnitData × List String) p =>
          if s.2.contains p then s else (s.1 ++ [g p], p :: s.2))
        (queue, visited)
      alt_restrict g stable_level cands fuel st.1 st.2 maxAlt2

/-- The alternative roots of `calc_max_alt_level` (main_chain.rs lines
123-140): the stable point is the best parent of the joint under test
(`last_ball`); its children whose best parent is the stable point and
which are not the joint under test. -/
def alternative_roots (g : Cache) (last_ball : UnitData) : List UnitData :=
  let stable_point := g last_ball.best_parent_unit
  (stable_point.children.map g).filter
    (fun c => c.best_parent_unit == stable_point.unit && c.unit != last_ball.unit)

/-- The `alt_candidates` collected by the descent loop of
`calc_max_alt_level`. -/
def alt_candidates (g : Cache) (fuel : Nat) (last_ball endJ : UnitData) : List UnitData :=
  (alt_descend g endJ.level fuel (alternative_roots g last_ball) []
    (g last_ball.best_parent_unit).level).1

/-- The `max_alt_level_possible` computed by the descent loop of
`calc_max_alt_level` (initially the stable point's level). -/
def max_alt_level_possible (g : Cache) (fuel : Nat) (last_ball endJ : UnitData) : Level :=
  (alt_descend g endJ.level fuel (alternative_roots g last_ball) []
    (g last_ball.best_parent_unit).level).2

/-- The `max_alt_level` computed by the restricted walk of
`calc_max_alt_level` (initially the stable point's level). -/
def max_alt_level_restricted (g : Cache) (fuel : Nat) (last_ball endJ : UnitData) : Level :=
  alt_restrict g (g last_ball.best_parent_unit).level
    (alt_candidates g fuel last_ball endJ) fuel [endJ] [] (g last_ball.best_parent_unit).level

/-- `calc_max_alt_level` (main_chain.rs lines 119-206): descend for the
candidates and `max_alt_level_possible`; return the latter early when
`min_wl > max_alt_level_possible` ("this max_alt_level_possible is not
the real max_alt_level but it's fine to return since it can't affect the
stable result"), else run the restricted walk. -/
def calc_max_alt_level (g : Cache) (fuel : Nat) (last_ball endJ : UnitData) : Level :=
  if lvl_lt (max_alt_level_possible g fuel last_ball endJ) endJ.min_wl then
    max_alt_level_possible g fuel last_ball endJ
  else max_alt_level_restricted g fuel last_ball endJ

theorem lvl_lt_block (x p j : Level) (h1 : lvl_lt p j = true)
    (h2 : lvl_lt x j = false) : lvl_lt x p = false := by
  cases x <;> cases p <;> cases j <;> simp_all [lvl_lt] <;> omega

theorem lvl_lt_shift (p j c : Level) (h1 : lvl_lt p j = true)
    (h2 : lvl_lt p c = false) : lvl_lt j c = false := by
  cases p <;> cases j <;> cases c <;> simp_all [lvl_lt] <;> omega

theorem alt_descend_inv (g : Cache) (el : Level) :
    ∀ (fuel : Nat) (stack cands : List UnitData) (poss : Level),
      (∀ c ∈ cands, lvl_lt poss c.level = false) →
      (∀ c ∈ (alt_descend g el fuel stack cands poss).1,
          lvl_lt (alt_descend g el fuel stack cands poss).2 c.level = false) ∧
      (poss = none → (alt_descend g el fuel stack cands poss).2 = none) ∧
      lvl_lt (alt_descend g el fuel stack cands poss).2 poss = false := by
  intro fuel
  induction fuel with
  | zero =>
    intro stack cands poss hc
    exact ⟨hc, fun h => h, lvl_lt_irrefl poss⟩
  | succ fuel ih =>
    intro stack cands poss hc
    cases stack with
    | nil => exact ⟨hc, fun h => h, lvl_lt_irrefl poss⟩
    | cons j stack =>
      by_cases hskip : lvl_le el j.level = true
      · have hstep : alt_descend g el (fuel + 1) (j :: stack) cands poss
            = alt_descend g el fuel stack cands poss := by
          simp [alt_descend, hskip]
        rw [hstep]
        exact ih stack cands poss hc
      · have hstep : alt_descend g el (fuel + 1) (j :: stack) cands poss
            = alt_descend g el fuel
                (((j.children.map g).filter (fun c => c.best_parent_unit == j.unit)) ++ stack)
                (if j.is_wl_increased then cands ++ [j] else cands)
                (if j.is_wl_increased && lvl_lt poss j.level then j.level else poss) := by
          simp [alt_descend, hskip]
        rw [hstep]
        by_cases hwl : j.is_wl_increased = true
        · by_cases hup : lvl_lt poss j.level = true
          · have hcondT : (j.is_wl_increased && lvl_lt poss j.level) = true := by
              rw [hwl, hup]; rfl
            rw [if_pos hwl, if_pos hcondT]
            have hc2 : ∀ c ∈ cands ++ [j], lvl_lt j.level c.level = false := by
              intro c hcmem
              rcases List.mem_append.mp hcmem with hcm | hcm
              · exact lvl_lt_shift poss j.level c.level hup (hc c hcm)
              · rcases List.mem_singleton.mp hcm with rfl
                exact lvl_lt_irrefl _
            have h3 := ih (((j.children.map g).filter
              (fun c => c.best_parent_unit == j.unit)) ++ stack) (cands ++ [j]) j.level hc2
            refine ⟨h3.1, ?_, ?_⟩
            · intro hposs
              rw [hposs, lvl_lt_none_left] at hup
              exact absurd hup (by simp)
            · exact lvl_lt_block _ poss j.level hup h3.2.2
          · have hupf : lvl_lt poss j.level = false := by
              simp only [Bool.not_eq_true] at hup
              exact hup
            have hcondF : (j.is_wl_increased && lvl_lt poss j.level) = false := by
              rw [hwl, hupf]
              rfl
            rw [if_pos hwl, if_neg (by simp [hcondF])]
            have hc2 : ∀ c ∈ cands ++ [j], lvl_lt poss c.level = false := by
              intro c hcmem
              rcases List.mem_append.mp hcmem with hcm | hcm
              · exact hc c hcm
              · rcases List.mem_singleton.mp hcm with rfl
                exact hupf
            exact ih (((j.children.map g).filter
              (fun c => c.best_parent_unit == j.unit)) ++ stack) (cands ++ [j]) poss hc2
        · have hwlf : j.is_wl_increased = false := by
            simp only [Bool.not_eq_true] at hwl
            exact hwl
          have hcondF : (j.is_wl_increased && lvl_lt poss j.level) = false := by
            rw [hwlf]
            rfl
          rw [if_neg (by simp [hwlf]), if_neg (by simp [hcondF])]
          exact ih (((j.children.map g).filter
            (fun c => c.best_parent_unit == j.unit)) ++ stack) cands poss hc

theorem alt_descend_entries (g : Cache) (el : Level) (WK : WellKeyed g) :
    ∀ (fuel : Nat) (stack cands : List UnitData) (poss : Level),
      (∀ d ∈ stack, g d.unit = d) →
      (∀ c ∈ cands, g c.unit = c) →
      ∀ c ∈ (alt_descend g el fuel stack cands poss).1, g c.unit = c := by
  intro fuel
  induction fuel with
  | zero =>
    intro stack cands poss _ hcands
    exact hcands
  | succ fuel ih =>
    intro stack cands poss hstack hcands
    cases stack with
    | nil => exact hcands
    | cons j stack =>
      by_cases hskip : lvl_le el j.level = true
      · have hstep : alt_descend g el (fuel + 1) (j :: stack) cands poss
            = alt_descend g el fuel stack cands poss := by
          simp [alt_descend, hskip]
        rw [hstep]
        exact ih stack cands poss (fun d hd => hstack d (List.mem_cons_of_mem _ hd)) hcands
      · have hstep : alt_descend g el (fuel + 1) (j :: stack) cands poss
            = alt_descend g el fuel
                (((j.children.map g).filter (fun c => c.best_parent_unit == j.unit)) ++ stack)
                (if j.is_wl_increased then cands ++ [j] else cands)
                (if j.is_wl_increased && lvl_lt poss j.level then j.level else poss) := by
          simp [alt_descend, hskip]
        rw [hstep]
        have hstack2 : ∀ d ∈ ((j.children.map g).filter
            (fun c => c.best_parent_unit == j.unit)) ++ stack, g d.unit = d := by
          intro d hd
          rcases List.mem_append.mp hd with hd | hd
          · rcases List.mem_filter.mp hd with ⟨hdm, _⟩
            rcases List.mem_map.mp hdm with ⟨h0, _, rfl⟩
            rw [WK h0]
          · exact hstack d (List.mem_cons_of_mem _ hd)
        have hcands2 : ∀ c ∈ (if j.is_wl_increased then cands ++ [j] else cands),
            g c.unit = c := by
          intro c hcm
          by_cases hwl : j.is_wl_increased = true
          · rw [if_pos hwl] at hcm
            rcases List.mem_append.mp hcm with hcm | hcm
            · exact hcands c hcm
            · have hcj : c = j := List.mem_singleton.mp hcm
              rw [hcj]
              exact hstack j (List.mem_cons_self j stack)
          · rw [if_neg hwl] at hcm
            exact hcands c hcm
        exact ih _ _ _ hstack2 hcands2

theorem push_parents_entries (g : Cache) (WK : WellKeyed g) :
    ∀ (ps : List String) (q : List UnitData) (v : List String),
      (∀ d ∈ q, g d.unit = d) →
      ∀ d ∈ (ps.foldl (fun (s : List UnitData × List String) p =>
          if s.2.contains p then s else (s.1 ++ [g p], p :: s.2)) (q, v)).1,
        g d.unit = d := by
  intro ps
  induction ps with
  | nil =>
    intro q v hq
    exact hq
  | cons p ps ih =>
    intro q v hq
    simp only [List.foldl_cons]
    by_cases hv : v.contains p = true
    · rw [if_pos hv]
      exact ih q v hq
    · rw [if_neg hv]
      refine ih (q ++ [g p]) (p :: v) ?_
      intro d hd
      rcases List.mem_append.mp hd with hd | hd
      · exact hq d hd
      · rcases List.mem_singleton.mp hd with rfl
        rw [WK p]

theorem lvl_lt_chain (p r w : Level) (h1 : lvl_lt p r = false) (h2 : r.isSome = true)
    (h3 : lvl_lt p w = true) : lvl_lt r w = true := by
  cases p <;> cases r <;> cases w <;> simp_all [lvl_lt] <;> omega

theorem alt_restrict_bound (g : Cache) (WK : WellKeyed g) (sl : Level)
    (cands : List UnitData) (P : Level)
    (hcb : ∀ c ∈ cands, lvl_lt P c.level = false)
    (hcf : ∀ c ∈ cands, g c.unit = c) :
    ∀ (fuel : Nat) (queue : List UnitData) (visited : List String) (acc : Level),
      (∀ d ∈ queue, g d.unit = d) →
      lvl_lt P acc = false →
      lvl_lt P (alt_restrict g sl cands fuel queue visited acc) = false ∧
      (acc.isSome = true → (alt_restrict g sl cands fuel queue visited acc).isSome = true) := by
  intro fuel
  induction fuel with
  | zero =>
    intro queue visited acc _ hacc
    exact ⟨hacc, fun h => h⟩
  | succ fuel ih =>
    intro queue visited acc hq hacc
    cases queue with
    | nil => exact ⟨hacc, fun h => h⟩
    | cons j queue =>
      by_cases hskip : lvl_le j.level sl = true
      · have hstep : alt_restrict g sl cands (fuel + 1) (j :: queue) visited acc
            = alt_restrict g sl cands fuel queue visited acc := by
          simp [alt_restrict, hskip]
        rw [hstep]
        exact ih queue visited acc (fun d hd => hq d (List.mem_cons_of_mem _ hd)) hacc
      · have hstep : alt_restrict g sl cands (fuel + 1) (j :: queue) visited acc
            = alt_restrict g sl cands fuel
                (j.parents.foldl (fun (s : List UnitData × List String) p =>
                  if s.2.contains p then s else (s.1 ++ [g p], p :: s.2)) (queue, visited)).1
                (j.parents.foldl (fun (s : List UnitData × List String) p =>
                  if s.2.contains p then s else (s.1 ++ [g p], p :: s.2)) (queue, visited)).2
                (if contains_unit cands j && lvl_lt acc j.level then j.level else acc) := by
          simp [alt_restrict, hskip]
        rw [hstep]
        have hqrest : ∀ d ∈ queue, g d.unit = d :=
          fun d hd => hq d (List.mem_cons_of_mem _ hd)
        have hq2 := push_parents_entries g WK j.parents queue visited hqrest
        by_cases hcond : (contains_unit cands j && lvl_lt acc j.level) = true
        · rw [if_pos hcond]
          rcases Bool.and_eq_true_iff.mp hcond with ⟨hcont, hlt⟩
          rcases List.any_eq_true.mp hcont with ⟨c, hcmem, hcu⟩
          have hcj : c = j := by
            have h1 : c.unit = j.unit := by
              exact beq_iff_eq.mp hcu
            have h2 := hcf c hcmem
            have h3 := hq j (List.mem_cons_self j queue)
            rw [← h2, h1, h3]
          have hPj : lvl_lt P j.level = false := by
            rw [← hcj]
            exact hcb c hcmem
          have hjSome : (j.level).isSome = true := by
            cases hjl : j.level with
            | none => rw [hjl, lvl_lt_none_right] at hlt; exact absurd hlt (by simp)
            | some v => rfl
          have hr := ih
            (j.parents.foldl (fun (s : List UnitData × List String) p =>
              if s.2.contains p then s else (s.1 ++ [g p], p :: s.2)) (queue, visited)).1
            (j.parents.foldl (fun (s : List UnitData × List String) p =>
              if s.2.contains p then s else (s.1 ++ [g p], p :: s.2)) (queue, visited)).2
            j.level hq2 hPj
          exact ⟨hr.1, fun _ => hr.2 hjSome⟩
        · rw [if_neg hcond]
          exact ih
            (j.parents.foldl (fun (s : List UnitData × List String) p =>
              if s.2.contains p then s else (s.1 ++ [g p], p :: s.2)) (queue, visited)).1
            (j.parents.foldl (fun (s : List UnitData × List String) p =>
              if s.2.contains p then s else (s.1 ++ [g p], p :: s.2)) (queue, visited)).2
            acc hq2 hacc

/-- C2: the restricted-walk result `max_alt_level` never exceeds
`max_alt_level_possible` (first conjunct, in the NaN-like order: the
possible level is never strictly below the restricted one), so when
`end.min_wl > max_alt_level_possible` the early return of
`calc_max_alt_level` yields the same stability decision
`min_wl > returned level` as the full restricted computation would
(second conjunct). -/
theorem C2_possible_bounds_restricted_same_decision :
    ∀ (g : Cache) (fuel : Nat) (last_ball endJ : UnitData),
      WellKeyed g → g endJ.unit = endJ →
      lvl_lt (max_alt_level_possible g fuel last_ball endJ)
        (max_alt_level_restricted g fuel last_ball endJ) = false ∧
      (lvl_lt (max_alt_level_possible g fuel last_ball endJ) endJ.min_wl = true →
        calc_max_alt_level g fuel last_ball endJ =
          max_alt_level_possible g fuel last_ball endJ ∧
        lvl_lt (max_alt_level_restricted g fuel last_ball endJ) endJ.min_wl = true) := by
  intro g fuel lb endJ WK hend
  have hroots : ∀ d ∈ alternative_roots g lb, g d.unit = d := by
    intro d hd
    simp only [alternative_roots, List.mem_filter, List.mem_map] at hd
    rcases hd with ⟨⟨h0, _, rfl⟩, _⟩
    rw [WK h0]
  have hdr := alt_descend_inv g endJ.level fuel (alternative_roots g lb) []
    (g lb.best_parent_unit).level (by intro c hc; cases hc)
  have hent := alt_descend_entries g endJ.level WK fuel (alternative_roots g lb) []
    (g lb.best_parent_unit).level hroots (by intro c hc; cases hc)
  have hres := alt_restrict_bound g WK (g lb.best_parent_unit).level
    (alt_candidates g fuel lb endJ) (max_alt_level_possible g fuel lb endJ)
    hdr.1 hent fuel [endJ] [] (g lb.best_parent_unit).level
    (by intro d hd; rcases List.mem_singleton.mp hd with rfl; exact hend)
    hdr.2.2
  refine ⟨hres.1, ?_⟩
  intro hlt
  refine ⟨by simp [calc_max_alt_level, hlt], ?_⟩
  have hSome : (max_alt_level_restricted g fuel lb endJ).isSome = true := by
    apply hres.2
    cases hsl : (g lb.best_parent_unit).level with
    | none =>
      have hnone := hdr.2.1 hsl
      rw [show max_alt_level_possible g fuel lb endJ
          = (alt_descend g endJ.level fuel (alternative_roots g lb) []
              (g lb.best_parent_unit).level).2 from rfl, hnone, lvl_lt_none_left] at hlt
      exact absurd hlt (by simp)
    | some v => rfl
  exact lvl_lt_chain (max_alt_level_possible g fuel lb endJ)
    (max_alt_level_restricted g fuel lb endJ) endJ.min_wl hres.1 hSome hlt

/-- A concrete cache for the C2 witness: the end joint has a high
`min_wl`, so the early return of `calc_max_alt_level` fires. -/
def gC2 : Cache := fun h =>
  if h = "e" then { baseUnit h with min_wl := some 7 } else baseUnit h

theorem C2_possible_bounds_restricted_same_decision_witness :
    calc_max_alt_level gC2 3 (baseUnit "lb") (gC2 "e") =
      max_alt_level_possible gC2 3 (baseUnit "lb") (gC2 "e") ∧
    lvl_lt (max_alt_level_restricted gC2 3 (baseUnit "lb") (gC2 "e"))
      (gC2 "e").min_wl = true := by
  have h := C2_possible_bounds_restricted_same_decision gC2 3 (baseUnit "lb") (gC2 "e")
    (by
      intro h
      by_cases hh : h = "e" <;> simp [gC2, baseUnit, hh])
    (by decide)
  exact h.2 (by decide)

/-! ### Relative-stable point and witnessed level (cache/joint_data.rs) — claim C4 -/

/-- Modelled from the spec: `config::MAJORITY_OF_WITNESSES` (the config
crate is not under src/): 7 of the 12 witnesses. -/
def MAJORITY_OF_WITNESSES : Nat := 7

/-- The author scan of one loop iteration of
`find_relative_stable_joint` (cache/joint_data.rs lines 373-380): push
every author address that is a witness and not yet collected.
`witnesses` models `MY_WITNESSES` (the witness list, not under src/). -/
def collect_witnesses (witnesses : List String) (authors : List String)
    (valid : List String) : List String :=
  authors.foldl
    (fun acc a =>
      if acc.contains a then acc
      else if witnesses.contains a then acc ++ [a] else acc)
    valid

/-- The loop of `find_relative_stable_joint` (cache/joint_data.rs lines
366-389): walk up best parents from `bp`, accumulating distinct witness
authors in `valid`; return the first joint at which the count reaches
`MAJORITY_OF_WITNESSES`.  Fuel bounds the loop, which the Rust code
runs until it returns. -/
def find_relative_stable_loop (g : Cache) (witnesses : List String) :
    Nat → List String → String → Option String
  | 0, _, _ => none
  | fuel + 1, valid, bp =>
    let j := g bp
    let valid2 := collect_witnesses witnesses j.authors valid
    if MAJORITY_OF_WITNESSES ≤ valid2.length then some bp
    else find_relative_stable_loop g witnesses fuel valid2 j.best_parent_unit

/-- `find_relative_stable_joint` (cache/joint_data.rs lines 366-389),
started as the source does at the unit's best parent with no witnesses
collected.  (The fake self-parent of genesis is not modelled: the claim
concerns units whose best parent is set.) -/
def find_relative_stable_joint (g : Cache) (witnesses : List String) (fuel : Nat)
    (u : UnitData) : Option String :=
  find_relative_stable_loop g witnesses fuel [] u.best_parent_unit

/-- `calc_witnessed_level` (cache/joint_data.rs lines 334-353): `wl`
becomes the relative-stable joint's level and `min_wl` its `wl`; the
increase flags compare against the best parent.  Returns the four
assignments `(wl, min_wl, is_wl_increased, is_min_wl_increased)`. -/
def calc_witnessed_level (g : Cache) (witnesses : List String) (fuel : Nat)
    (u : UnitData) : Option (Level × Level × Bool × Bool) :=
  match find_relative_stable_joint g witnesses fuel u with
  | none => none
  | some r =>
    let joint := g r
    let wl := joint.level
    let min_wl := joint.wl
    let bp := g u.best_parent_unit
    some (wl, min_wl, lvl_lt bp.wl wl, lvl_lt bp.min_wl min_wl)

/-- The best-parent chain starting at a unit's best parent:
`bp_chain g u 0` is the unit's best parent, `bp_chain g u (k+1)` the
best parent of `bp_chain g u k`. -/
def bp_chain (g : Cache) (u : UnitData) : Nat → String
  | 0 => u.best_parent_unit
  | k + 1 => (g (bp_chain g u k)).best_parent_unit

/-- The distinct witness authors accumulated along the best-parent chain
prefix ending at `bp_chain g u k`. -/
def chain_witnesses (g : Cache) (witnesses : List String) (u : UnitData) :
    Nat → List String
  | 0 => collect_witnesses witnesses (g (bp_chain g u 0)).authors []
  | k + 1 => collect_witnesses witnesses (g (bp_chain g u (k + 1))).authors
      (chain_witnesses g witnesses u k)

/-- The witnesses collected before the loop visits `bp_chain g u k`. -/
def chain_witnesses_before (g : Cache) (witnesses : List String) (u : UnitData) :
    Nat → List String
  | 0 => []
  | k + 1 => chain_witnesses g witnesses u k

theorem find_loop_from (g : Cache) (witnesses : List String) (u : UnitData) :
    ∀ (fuel : Nat) (k : Nat) (r : String),
      find_relative_stable_loop g witnesses fuel
        (chain_witnesses_before g witnesses u k) (bp_chain g u k) = some r →
      ∃ m, k ≤ m ∧ r = bp_chain g u m ∧
        MAJORITY_OF_WITNESSES ≤ (chain_witnesses g witnesses u m).length ∧
        ∀ i, k ≤ i → i < m →
          (chain_witnesses g witnesses u i).length < MAJORITY_OF_WITNESSES := by
  intro fuel
  induction fuel with
  | zero =>
    intro k r h
    exact absurd h (by simp [find_relative_stable_loop])
  | succ fuel ih =>
    intro k r h
    have hvalid2 : collect_witnesses witnesses (g (bp_chain g u k)).authors
        (chain_witnesses_before g witnesses u k) = chain_witnesses g witnesses u k := by
      cases k with
      | zero => rfl
      | succ k => rfl
    rw [find_relative_stable_loop] at h
    simp only [hvalid2] at h
    by_cases hmaj : MAJORITY_OF_WITNESSES ≤ (chain_witnesses g witnesses u k).length
    · rw [if_pos hmaj] at h
      rcases Option.some.injEq _ _ ▸ h with rfl
      exact ⟨k, le_refl k, rfl, hmaj, fun i h1 h2 => absurd (lt_of_le_of_lt h1 h2)
        (lt_irrefl k)⟩
    · rw [if_neg hmaj] at h
      have hnext : (g (bp_chain g u k)).best_parent_unit = bp_chain g u (k + 1) := rfl
      rw [hnext] at h
      have hprev : chain_witnesses g witnesses u k
          = chain_witnesses_before g witnesses u (k + 1) := rfl
      rw [hprev] at h
      rcases ih (k + 1) r h with ⟨m, hm1, hm2, hm3, hm4⟩
      refine ⟨m, le_trans (Nat.le_succ k) hm1, hm2, hm3, ?_⟩
      intro i h1 h2
      rcases Nat.eq_or_lt_of_le h1 with rfl | h1
      · exact Nat.lt_of_not_le hmaj
      · exact hm4 i h1 h2

/-- C4: when `find_relative_stable_joint` returns a joint `r`, `r` is
the first joint on the unit's best-parent chain (walking up from the
unit's best parent) at which the accumulated count of distinct witness
author addresses reaches `MAJORITY_OF_WITNESSES` (7 of the 12); and
`calc_witnessed_level` then assigns the unit `wl = r.level` and
`min_wl = r.wl` (with the increase flags compared against the best
parent). -/
theorem C4_relative_stable_first_majority :
    ∀ (g : Cache) (witnesses : List String) (fuel : Nat) (u : UnitData) (r : String),
      find_relative_stable_joint g witnesses fuel u = some r →
      (∃ m, r = bp_chain g u m ∧
        MAJORITY_OF_WITNESSES ≤ (chain_witnesses g witnesses u m).length ∧
        ∀ i, i < m →
          (chain_witnesses g witnesses u i).length < MAJORITY_OF_WITNESSES) ∧
      calc_witnessed_level g witnesses fuel u =
        some ((g r).level, (g r).wl,
          lvl_lt ((g u.best_parent_unit).wl) ((g r).level),
          lvl_lt ((g u.best_parent_unit).min_wl) ((g r).wl)) := by
  intro g witnesses fuel u r h
  have h0 := h
  rw [show find_relative_stable_joint g witnesses fuel u
      = find_relative_stable_loop g witnesses fuel
          (chain_witnesses_before g witnesses u 0) (bp_chain g u 0) from rfl] at h0
  rcases find_loop_from g witnesses u fuel 0 r h0 with ⟨m, _, hm2, hm3, hm4⟩
  refine ⟨⟨m, hm2, hm3, fun i h2 => hm4 i (Nat.zero_le i) h2⟩, ?_⟩
  simp [calc_witnessed_level, h]

/-- The 12 witness addresses used by the C4 witness. -/
def witnesses12 : List String :=
  ["w01", "w02", "w03", "w04", "w05", "w06", "w07", "w08", "w09", "w10", "w11", "w12"]

/-- A cache whose joint "a" is authored by 7 witnesses, for the C4
witness. -/
def gC4 : Cache := fun h =>
  if h = "a" then
    { baseUnit h with
      authors := ["w01", "w02", "w03", "w04", "w05", "w06", "w07"],
      level := some 3, wl := some 2, best_parent_unit := "b" }
  else baseUnit h

/-- A unit whose best parent is "a", for the C4 witness. -/
def uC4 : UnitData := { baseUnit "u" with best_parent_unit := "a" }

theorem C4_relative_stable_first_majority_witness :
    (∃ m, "a" = bp_chain gC4 uC4 m ∧
      MAJORITY_OF_WITNESSES ≤ (chain_witnesses gC4 witnesses12 uC4 m).length ∧
      ∀ i, i < m →
        (chain_witnesses gC4 witnesses12 uC4 i).length < MAJORITY_OF_WITNESSES) ∧
    calc_witnessed_level gC4 witnesses12 5 uC4 =
      some ((gC4 "a").level, (gC4 "a").wl,
        lvl_lt ((gC4 uC4.best_parent_unit).wl) ((gC4 "a").level),
        lvl_lt ((gC4 uC4.best_parent_unit).min_wl) ((gC4 "a").wl)) :=
  C4_relative_stable_first_majority gC4 witnesses12 5 uC4 "a" (by decide)

/-! ### Ancestry fast rejection (cache/joint_data.rs) — claim C8 -/

/-- `UnitProps` (cache/joint_data.rs lines 17-28): the property snapshot
consumed by the ancestry fast paths. -/
structure UnitProps where
  key : String
  level : Level
  wl : Level
  mci : Level
  limci : Level
  is_stable : Bool
deriving DecidableEq, Repr

/-- `JointData::get_props` (cache/joint_data.rs lines 146-151). -/
def UnitData.get_props (u : UnitData) : UnitProps :=
  { key := u.unit, level := u.level, wl := u.wl, mci := u.mci, limci := u.limci,
    is_stable := u.is_stable }

/-- `UnitProps::not_included` (cache/joint_data.rs lines 34-51): the
five fast conditions certifying that `other` is not an ancestor of
`self`. -/
def not_included (a other : UnitProps) : Bool :=
  lvl_le a.level other.level || lvl_lt a.wl other.wl || lvl_lt a.mci other.mci ||
  lvl_lt a.limci other.limci || (a.is_stable && !other.is_stable)

/-- Strict ancestry in the cache: `InPast g a b` holds when `b` is
reachable from `a` through one or more parent edges — `b` is in `a`'s
past, `a` includes `b`. -/
inductive InPast (g : Cache) : String → String → Prop where
  | parent : ∀ a p, p ∈ (g a).parents → InPast g a p
  | step : ∀ a p b, p ∈ (g a).parents → InPast g p b → InPast g a b

/-- A monotone signal along one parent edge (decidable form): when the
child's value is set, the parent's value is set and not larger. -/
def sig_mono (parentVal childVal : Level) : Bool :=
  match childVal, parentVal with
  | none, _ => true
  | some b, some a => decide (a ≤ b)
  | some _, none => false

/-- A strictly increasing signal along one parent edge: when the child's
value is set, the parent's value is set and strictly smaller. -/
def sig_strict (parentVal childVal : Level) : Bool :=
  match childVal, parentVal with
  | none, _ => true
  | some b, some a => decide (a < b)
  | some _, none => false

/-- The graph invariants the cache maintains (spec §3 invariant I1 and
§5 "the include fast paths are monotone in their signals"), over a
finite domain of units: parent edges stay in the domain, every parent
has strictly lower level, the fast-path signals wl, mci and limci are
monotone along parent edges, and stability is closed under parents. -/
structure CacheInvariants (g : Cache) (dom : List String) : Prop where
  closed : ∀ u ∈ dom, ∀ p ∈ (g u).parents, p ∈ dom
  level_strict : ∀ u ∈ dom, ∀ p ∈ (g u).parents,
    sig_strict ((g p).level) ((g u).level) = true
  wl_mono : ∀ u ∈ dom, ∀ p ∈ (g u).parents, sig_mono ((g p).wl) ((g u).wl) = true
  mci_mono : ∀ u ∈ dom, ∀ p ∈ (g u).parents, sig_mono ((g p).mci) ((g u).mci) = true
  limci_mono : ∀ u ∈ dom, ∀ p ∈ (g u).parents, sig_mono ((g p).limci) ((g u).limci) = true
  stable_closed : ∀ u ∈ dom, ∀ p ∈ (g u).parents,
    (g u).is_stable = true → (g p).is_stable = true

theorem sig_strict_trans (x y z : Level) (h1 : sig_strict x y = true)
    (h2 : sig_strict y z = true) : sig_strict x z = true := by
  cases x <;> cases y <;> cases z <;> simp_all [sig_strict] <;> omega

theorem sig_mono_trans (x y z : Level) (h1 : sig_mono x y = true)
    (h2 : sig_mono y z = true) : sig_mono x z = true := by
  cases x <;> cases y <;> cases z <;> simp_all [sig_mono] <;> omega

theorem sig_strict_mono (x y : Level) (h : sig_strict x y = true) : sig_mono x y = true := by
  cases x <;> cases y <;> simp_all [sig_strict, sig_mono] <;> omega

theorem inpast_props (g : Cache) (dom : List String) (inv : CacheInvariants g dom) :
    ∀ a b, InPast g a b → a ∈ dom →
      b ∈ dom ∧ sig_strict ((g b).level) ((g a).level) = true ∧
      sig_mono ((g b).wl) ((g a).wl) = true ∧
      sig_mono ((g b).mci) ((g a).mci) = true ∧
      sig_mono ((g b).limci) ((g a).limci) = true ∧
      ((g a).is_stable = true → (g b).is_stable = true) := by
  intro a b hip
  induction hip with
  | parent a p hp =>
    intro ha
    exact ⟨inv.closed a ha p hp, inv.level_strict a ha p hp, inv.wl_mono a ha p hp,
      inv.mci_mono a ha p hp, inv.limci_mono a ha p hp, inv.stable_closed a ha p hp⟩
  | step a p b hp _hrest ih =>
    intro ha
    have hpdom : p ∈ dom := inv.closed a ha p hp
    rcases ih hpdom with ⟨hb, hl, hw, hm, hli, hs⟩
    refine ⟨hb, ?_, ?_, ?_, ?_, ?_⟩
    · exact sig_strict_trans _ _ _ hl (inv.level_strict a ha p hp)
    · exact sig_mono_trans _ _ _ hw (inv.wl_mono a ha p hp)
    · exact sig_mono_trans _ _ _ hm (inv.mci_mono a ha p hp)
    · exact sig_mono_trans _ _ _ hli (inv.limci_mono a ha p hp)
    · exact fun hst => hs (inv.stable_closed a ha p hp hst)

theorem sig_strict_le_absurd (pv cv : Level) (h1 : sig_strict pv cv = true)
    (h2 : lvl_le cv pv = true) : False := by
  cases pv <;> cases cv <;> simp_all [sig_strict, lvl_le] <;> omega

theorem sig_mono_lt_absurd (pv cv : Level) (h1 : sig_mono pv cv = true)
    (h2 : lvl_lt cv pv = true) : False := by
  cases pv <;> cases cv <;> simp_all [sig_mono, lvl_lt] <;> omega

/-- C8: in a cache satisfying the graph invariants (parents strictly
lower level; the fast-path signals monotone along parent edges;
stability closed under parents), whenever any of the five fast
conditions of `not_included` holds of `(A, B)`, `B` is not in `A`'s
past; hence the pruning by `not_included` inside `is_ancestor` never
discards a path to a true ancestor (a subtree rooted at a pruned joint
cannot reach `B`). -/
theorem C8_not_included_sound :
    ∀ (g : Cache) (dom : List String) (a b : String),
      CacheInvariants g dom → a ∈ dom →
      not_included (g a).get_props (g b).get_props = true →
      ¬ InPast g a b := by
  intro g dom a b inv ha hni hip
  rcases inpast_props g dom inv a b hip ha with ⟨_hb, hl, hw, hm, hli, hs⟩
  simp only [not_included, UnitData.get_props, Bool.or_eq_true] at hni
  rcases hni with ((((h | h) | h) | h) | h)
  · exact sig_strict_le_absurd _ _ hl h
  · exact sig_mono_lt_absurd _ _ hw h
  · exact sig_mono_lt_absurd _ _ hm h
  · exact sig_mono_lt_absurd _ _ hli h
  · rcases Bool.and_eq_true_iff.mp h with ⟨hsa, hsb⟩
    rw [hs hsa] at hsb
    exact absurd hsb (by simp)

/-- A two-unit cache with no edges, for the C8 witness. -/
def gC8 : Cache := fun h =>
  if h = "b" then { baseUnit h with level := some 9 } else baseUnit h

theorem C8_not_included_sound_witness : ¬ InPast gC8 "a" "b" :=
  C8_not_included_sound gC8 ["a", "b"] "a" "b"
    ⟨by decide, by decide, by decide, by decide, by decide, by decide⟩
    (by decide) (by decide)

/-! ### Business worker (business/mod.rs) — claim C9 -/

/-- Modelled from the spec: the per-message operations of the
sub-ledgers (`UtxoCache`, `TextCache`, `TimerCache`); the files
business/utxo.rs, business/text.rs and business/data_feed.rs are not
under src/, so the operations are abstract state transformers over a
mirror state type `S`; `applyMsg` and `revertMsg` return `none` on
error. -/
structure SubOps (S : Type) where
  validateMsg : S → UnitData → Nat → Bool
  applyMsg : S → UnitData → Nat → Option S
  revertMsg : S → UnitData → Nat → Option S

/-- The tentative-mirror apply loop of `start_business_worker`
(business/mod.rs lines 85-91): apply each message in order, logging and
keeping the state on a per-message error. -/
def temp_apply_all {S : Type} (ops : SubOps S) (j : UnitData) (s : S) : S :=
  (List.range j.msg_count).foldl
    (fun st i =>
      match ops.applyMsg st j i with
      | some st2 => st2
      | none => st) s

/-- The tentative-mirror revert loop of `start_business_worker`
(business/mod.rs lines 110-117): revert each message in order, logging
and keeping the state on a per-message error. -/
def temp_revert_all {S : Type} (ops : SubOps S) (j : UnitData) (s : S) : S :=
  (List.range j.msg_count).foldl
    (fun st i =>
      match ops.revertMsg st j i with
      | some st2 => st2
      | none => st) s

/-- The business state: the global `last_stable_self_joint` map
(address → unit hash, the `HashMap` modelled as an association list) and
the stable and tentative mirrors (`BusinessCache`, business/mod.rs lines
246-252). -/
structure BizState (S : Type) where
  last_stable_self_joint : List (String × String)
  business_state : S
  temp_business_state : S

/-- `HashMap` entry update (`entry(..).and_modify(..).or_insert(..)`). -/
def assoc_set (m : List (String × String)) (k v : String) : List (String × String) :=
  match m with
  | [] => [(k, v)]
  | (k0, v0) :: rest => if k0 = k then (k0, v) :: rest else (k0, v0) :: assoc_set rest k v

/-- `HashMap` lookup. -/
def assoc_get (m : List (String × String)) (k : String) : Option String :=
  match m with
  | [] => none
  | (k0, v0) :: rest => if k0 = k then some v0 else assoc_get rest k

/-- `GlobalState::update_last_stable_self_joint` (business/mod.rs lines
153-163): map every author address of the joint to its unit hash. -/
def update_last_stable_self_joint (m : List (String × String)) (j : UnitData) :
    List (String × String) :=
  j.authors.foldl (fun acc a => assoc_set acc a j.unit) m

/-- `BusinessCache::is_include_last_stable_self_joint` (business/mod.rs
lines 287-304): every author's recorded last stable self joint must be
included by the joint; `includes` abstracts the `JointData` partial
order test `joint > author_joint` (cache/joint_data.rs lines 527-584). -/
def is_include_last_stable_self_joint (includes : UnitData → String → Bool)
    (m : List (String × String)) (j : UnitData) : Bool :=
  j.authors.all (fun a =>
    match assoc_get m a with
    | none => true
    | some u => includes j u)

/-- `BusinessCache::validate_stable_joint` (business/mod.rs lines
337-352): reject a joint already FinalBad, require
`is_include_last_stable_self_joint`, then validate every message against
the stable mirror. -/
def validate_stable_joint {S : Type} (ops : SubOps S)
    (includes : UnitData → String → Bool) (st : BizState S) (j : UnitData) : Bool :=
  if j.sequence == JointSequence.FinalBad then false
  else if !is_include_last_stable_self_joint includes st.last_stable_self_joint j then
    false
  else (List.range j.msg_count).all (fun i => ops.validateMsg st.business_state j i)

/-- The message loop of `apply_stable_joint` (business/mod.rs lines
363-365): apply messages in order; an error stops the loop and
propagates (flag false), keeping the partially applied mirror. -/
def apply_msgs {S : Type} (ops : SubOps S) (j : UnitData) :
    Nat → Nat → S → (S × Bool)
  | 0, _, s => (s, true)
  | n + 1, i, s =>
    match ops.applyMsg s j i with
    | none => (s, false)
    | some s2 => apply_msgs ops j n (i + 1) s2

/-- `BusinessCache::apply_stable_joint` (business/mod.rs lines
355-368): update the global `last_stable_self_joint` index, then apply
every message to the stable mirror. -/
def apply_stable_joint {S : Type} (ops : SubOps S) (st : BizState S) (j : UnitData) :
    BizState S × Bool :=
  let m2 := update_last_stable_self_joint st.last_stable_self_joint j
  let r := apply_msgs ops j j.msg_count 0 st.business_state
  ({ st with last_stable_self_joint := m2, business_state := r.1 }, r.2)

/-- One iteration of `start_business_worker` (business/mod.rs lines
69-131) on a stable joint: validate against the stable mirror; on
success a NonserialBad/TempBad joint first has its messages applied to
the tentative mirror, then `apply_stable_joint` runs (a failure there
makes the joint FinalBad); on failure, a joint whose sequence was Good
has its messages reverted from the tentative mirror, and the joint
becomes FinalBad.  Returns the new state and the joint's sequence. -/
def business_worker_step {S : Type} (ops : SubOps S)
    (includes : UnitData → String → Bool) (st : BizState S) (j : UnitData) :
    BizState S × JointSequence :=
  if validate_stable_joint ops includes st j then
    let st1 :=
      match j.sequence with
      | JointSequence.NonserialBad | JointSequence.TempBad =>
        { st with temp_business_state := temp_apply_all ops j st.temp_business_state }
      | _ => st
    let r := apply_stable_joint ops st1 j
    if r.2 then (r.1, j.sequence) else (r.1, JointSequence.FinalBad)
  else
    let st1 :=
      if j.sequence == JointSequence.Good then
        { st with temp_business_state := temp_revert_all ops j st.temp_business_state }
      else st
    (st1, JointSequence.FinalBad)

theorem assoc_get_set_eq (m : List (String × String)) (k v : String) :
    assoc_get (assoc_set m k v) k = some v := by
  induction m with
  | nil => simp [assoc_set, assoc_get]
  | cons kv rest ih =>
    rcases kv with ⟨k0, v0⟩
    by_cases hk : k0 = k
    · simp [assoc_set, assoc_get, hk]
    · simp [assoc_set, assoc_get, hk, ih]

theorem assoc_get_set_ne (m : List (String × String)) (k v k' : String) (h : k ≠ k') :
    assoc_get (assoc_set m k v) k' = assoc_get m k' := by
  induction m with
  | nil => simp [assoc_set, assoc_get, h]
  | cons kv rest ih =>
    rcases kv with ⟨k0, v0⟩
    by_cases hk : k0 = k
    · subst hk
      simp [assoc_set, assoc_get, h]
    · simp [assoc_set, assoc_get, hk, ih]

theorem assoc_get_fold_ne (u : String) :
    ∀ (auths : List String) (m : List (String × String)) (a : String),
      (∀ b ∈ auths, b ≠ a) →
      assoc_get (auths.foldl (fun acc b => assoc_set acc b u) m) a = assoc_get m a := by
  intro auths
  induction auths with
  | nil => intro m a _; rfl
  | cons b rest ih =>
    intro m a hne
    simp only [List.foldl_cons]
    rw [ih (assoc_set m b u) a (fun c hc => hne c (List.mem_cons_of_mem _ hc))]
    exact assoc_get_set_ne m b u a (hne b (List.mem_cons_self b rest))

theorem assoc_get_fold_mem (u : String) :
    ∀ (auths : List String) (m : List (String × String)) (a : String),
      a ∈ auths →
      assoc_get (auths.foldl (fun acc b => assoc_set acc b u) m) a = some u := by
  intro auths
  induction auths with
  | nil => intro m a h; cases h
  | cons b rest ih =>
    intro m a hmem
    simp only [List.foldl_cons]
    by_cases hr : a ∈ rest
    · exact ih (assoc_set m b u) a hr
    · have hab : a = b := by
        rcases List.mem_cons.mp hmem with h | h
        · exact h
        · exact absurd h hr
      subst hab
      rw [assoc_get_fold_ne u rest (assoc_set m a u) a (fun c hc hca => hr (hca ▸ hc))]
      exact assoc_get_set_eq m a u

/-- The sub-ledger operations of the C9 counterexample: validation
always fails; revert changes the (integer) mirror. -/
def opsC9 : SubOps Int :=
  { validateMsg := fun _ _ _ => false
    applyMsg := fun s _ _ => some (s + 1)
    revertMsg := fun s _ _ => some (s - 1) }

/-- A TempBad joint with one message, for the C9 counterexample. -/
def jC9 : UnitData :=
  { baseUnit "j9" with sequence := JointSequence.TempBad, msg_count := 1 }

/-- The business state of the C9 counterexample. -/
def stC9 : BizState Int :=
  { last_stable_self_joint := [], business_state := 0, temp_business_state := 0 }

/-- C9 counterexample: a TempBad joint that fails stable validation is
NOT reverted from the tentative mirror (the worker reverts only when
the sequence was Good): the tentative mirror stays 0 while the claimed
revert would give -1.  This contradicts the claim's unconditional "the
joint's messages are reverted from the tentative mirror". -/
theorem C9_counterexample :
    validate_stable_joint opsC9 (fun _ _ => true) stC9 jC9 = false ∧
    (business_worker_step opsC9 (fun _ _ => true) stC9 jC9).2 = JointSequence.FinalBad ∧
    (business_worker_step opsC9 (fun _ _ => true) stC9 jC9).1.temp_business_state = 0 ∧
    temp_revert_all opsC9 jC9 (0 : Int) = -1 := by
  refine ⟨by decide, by decide, by decide, by decide⟩

/-- C9 amended: for every stable joint processed by the business
worker, if `validate_stable_joint` fails then the joint's sequence is
set to FinalBad, the stable mirror and the `last_stable_self_joint`
index are left unchanged, and the joint's messages are reverted from
the tentative mirror exactly when the joint's sequence was Good (its
messages had been applied there); if validation succeeds,
`apply_stable_joint` runs: it advances `last_stable_self_joint[address]`
to this joint for each of its author addresses and applies the joint's
messages to the stable mirror (FinalBad on an apply error). -/
theorem C9_stable_validation_outcomes :
    ∀ (S : Type) (ops : SubOps S) (includes : UnitData → String → Bool)
      (st : BizState S) (j : UnitData),
      (validate_stable_joint ops includes st j = false →
        (business_worker_step ops includes st j).2 = JointSequence.FinalBad ∧
        (business_worker_step ops includes st j).1.business_state = st.business_state ∧
        (business_worker_step ops includes st j).1.last_stable_self_joint =
          st.last_stable_self_joint ∧
        (business_worker_step ops includes st j).1.temp_business_state =
          (if j.sequence == JointSequence.Good then
            temp_revert_all ops j st.temp_business_state
          else st.temp_business_state)) ∧
      (validate_stable_joint ops includes st j = true →
        (business_worker_step ops includes st j).1.last_stable_self_joint =
          update_last_stable_self_joint st.last_stable_self_joint j ∧
        (∀ a ∈ j.authors,
          assoc_get (business_worker_step ops includes st j).1.last_stable_self_joint a =
            some j.unit) ∧
        (business_worker_step ops includes st j).1.business_state =
          (apply_msgs ops j j.msg_count 0 st.business_state).1 ∧
        ((apply_msgs ops j j.msg_count 0 st.business_state).2 = true →
          (business_worker_step ops includes st j).2 = j.sequence) ∧
        ((apply_msgs ops j j.msg_count 0 st.business_state).2 = false →
          (business_worker_step ops includes st j).2 = JointSequence.FinalBad)) := by
  intro S ops includes st j
  constructor
  · intro hval
    simp only [business_worker_step, hval, Bool.false_eq_true, if_false]
    by_cases hseq : (j.sequence == JointSequence.Good) = true
    · simp [hseq]
    · simp [hseq]
  · intro hval
    simp only [business_worker_step, hval, if_true]
    have hget : ∀ a ∈ j.authors,
        assoc_get (update_last_stable_self_joint st.last_stable_self_joint j) a =
          some j.unit := by
      intro a ha
      exact assoc_get_fold_mem j.unit j.authors st.last_stable_self_joint a ha
    cases hseq : j.sequence <;>
      by_cases hok : (apply_msgs ops j j.msg_count 0 st.business_state).2 = true <;>
        simp_all [apply_stable_joint, update_last_stable_self_joint]

/-- Sub-ledger operations whose validation succeeds, for the C9
witness. -/
def opsC9ok : SubOps Int :=
  { validateMsg := fun _ _ _ => true
    applyMsg := fun s _ _ => some (s + 1)
    revertMsg := fun s _ _ => some (s - 1) }

/-- A Good joint with one author, for the C9 witness. -/
def jC9ok : UnitData :=
  { baseUnit "jok" with authors := ["addr1"], msg_count := 2 }

theorem C9_stable_validation_outcomes_witness :
    (business_worker_step opsC9 (fun _ _ => true) stC9 jC9).2 = JointSequence.FinalBad ∧
    assoc_get
      (business_worker_step opsC9ok (fun _ _ => true) stC9 jC9ok).1.last_stable_self_joint
      "addr1" = some "jok" := by
  constructor
  · exact ((C9_stable_validation_outcomes Int opsC9 (fun _ _ => true) stC9 jC9).1
      (by decide)).1
  · exact ((C9_stable_validation_outcomes Int opsC9ok (fun _ _ => true) stC9 jC9ok).2
      (by decide)).2.1 "addr1" (by decide)

/-! ### Mci assignment (main_chain.rs `mark_main_chain_joint_stable`) — claim C3 -/

/-- The BFS collection loop of `mark_main_chain_joint_stable`
(main_chain.rs lines 211-227): walk up from the main chain joint
through parents, skipping joints already collected (membership by unit
hash, the `PartialEq` of `JointData`) or already carrying a valid mci;
the parents of a newly collected joint are enqueued.  Returns the
collected joints (in collection order) and the remaining queue (empty
when the loop ran to completion, which is how the Rust loop exits). -/
def mark_collect (g : Cache) : Nat → List UnitData → List UnitData →
    (List UnitData × List UnitData)
  | 0, queue, sorted => (sorted, queue)
  | _fuel + 1, [], sorted => (sorted, [])
  | fuel + 1, j :: queue, sorted =>
    if contains_unit sorted j || lvl_valid j.mci then
      mark_collect g fuel queue sorted
    else
      mark_collect g fuel (queue ++ j.parents.map g) (sorted ++ [j])

/-- The comparator of the sort in `mark_main_chain_joint_stable`
(main_chain.rs lines 230-237): level ascending, then unit hash
ascending. -/
def lex_le (a b : UnitData) : Bool :=
  lvl_lt a.level b.level || (lvl_eq a.level b.level && str_le a.unit b.unit)

/-- One record of property assignments performed by
`mark_main_chain_joint_stable`. -/
structure MarkAssign where
  unit : String
  sub_mci : Level
  mci : Level
  limci : Level
deriving DecidableEq, Repr

/-- The assignment loop of `mark_main_chain_joint_stable`
(main_chain.rs lines 239-265): in sorted order give each joint the next
sub_mci, compute its limci as the maximum of its parents' current limci
(starting from `Level::ZERO`) unless the joint's limci is already set
(true only of the main-chain joint, whose limci was set to the new mci
up front), set its mci, and push it to the business worker — the
returned list is the push order.  `limciSt` is the mutable limci view of
the cache, updated as the loop writes. -/
def mark_assign (g : Cache) (mci : Level) :
    List UnitData → Level → (String → Level) → List MarkAssign
  | [], _, _ => []
  | j :: rest, sub_mci, limciSt =>
    let jl := limciSt j.unit
    let newLimci :=
      if lvl_valid jl then jl
      else j.parents.foldl
        (fun acc p => if lvl_lt acc (limciSt p) then limciSt p else acc) (some 0)
    { unit := j.unit, sub_mci := sub_mci, mci := mci, limci := newLimci } ::
      mark_assign g mci rest (lvl_add1 sub_mci)
        (fun h => if h = j.unit then newLimci else limciSt h)

/-- `mark_main_chain_joint_stable` (main_chain.rs lines 208-278): set
the main-chain joint's limci to the new mci, BFS-collect the
not-yet-mci'd ancestors, sort by (level, unit hash) and run the
assignment loop.  Returns the assignments in business-worker push order
and the BFS queue remainder (empty when collection ran to completion).
The mc-index update and the `MciStableEvent` carry no per-unit state
and are not modelled. -/
def mark_main_chain_joint_stable (g : Cache) (m : String) (mci : Level) (fuel : Nat) :
    List MarkAssign × List UnitData :=
  let limci0 : String → Level := fun h => if h = m then mci else (g h).limci
  let r := mark_collect g fuel [g m] []
  let sorted := sort_le lex_le r.1
  (mark_assign g mci sorted (some 0) limci0, r.2)

/-- The not-yet-mci-assigned ancestry of `m`: the joints reachable from
`m` through parent edges along joints whose mci is not yet set,
including `m` itself. -/
inductive MciReach (g : Cache) (m : String) : String → Prop where
  | start : lvl_valid (g m).mci = false → MciReach g m m
  | step : ∀ u p, MciReach g m u → p ∈ (g u).parents →
      lvl_valid (g p).mci = false → MciReach g m p

theorem mark_collect_mono (g : Cache) :
    ∀ (fuel : Nat) (q s : List UnitData), ∃ t, (mark_collect g fuel q s).1 = s ++ t := by
  intro fuel
  induction fuel with
  | zero => intro q s; exact ⟨[], by simp [mark_collect]⟩
  | succ fuel ih =>
    intro q s
    cases q with
    | nil => exact ⟨[], by simp [mark_collect]⟩
    | cons j q =>
      by_cases hc : (contains_unit s j || lvl_valid j.mci) = true
      · have hstep : mark_collect g (fuel + 1) (j :: q) s = mark_collect g fuel q s := by
          simp [mark_collect, hc]
        rw [hstep]
        exact ih q s
      · have hstep : mark_collect g (fuel + 1) (j :: q) s
            = mark_collect g fuel (q ++ j.parents.map g) (s ++ [j]) := by
          simp only [mark_collect]
          rw [if_neg hc]
        rw [hstep]
        rcases ih (q ++ j.parents.map g) (s ++ [j]) with ⟨t, ht⟩
        exact ⟨j :: t, by rw [ht]; simp⟩

theorem mark_collect_mem_of_mem (g : Cache) (fuel : Nat) (q s : List UnitData)
    (d : UnitData) (hd : d ∈ s) : d ∈ (mark_collect g fuel q s).1 := by
  rcases mark_collect_mono g fuel q s with ⟨t, ht⟩
  rw [ht]
  exact List.mem_append_left t hd

theorem mark_collect_processed (g : Cache) :
    ∀ (fuel : Nat) (q s : List UnitData),
      (mark_collect g fuel q s).2 = [] →
      ∀ d ∈ q, (∃ e ∈ (mark_collect g fuel q s).1, e.unit = d.unit) ∨
        lvl_valid d.mci = true := by
  intro fuel
  induction fuel with
  | zero =>
    intro q s hq d hd
    simp [mark_collect] at hq
    rw [hq] at hd
    cases hd
  | succ fuel ih =>
    intro q s hq d hd
    cases q with
    | nil => cases hd
    | cons j q =>
      by_cases hc : (contains_unit s j || lvl_valid j.mci) = true
      · have hstep : mark_collect g (fuel + 1) (j :: q) s = mark_collect g fuel q s := by
          simp [mark_collect, hc]
        rw [hstep] at hq ⊢
        rcases List.mem_cons.mp hd with rfl | hd
        · rcases Bool.or_eq_true_iff.mp hc with hcc | hcc
          · rcases List.any_eq_true.mp hcc with ⟨e, he, heq⟩
            exact Or.inl ⟨e, mark_collect_mem_of_mem g fuel q s e he, beq_iff_eq.mp heq⟩
          · exact Or.inr hcc
        · exact ih q s hq d hd
      · have hstep : mark_collect g (fuel + 1) (j :: q) s
            = mark_collect g fuel (q ++ j.parents.map g) (s ++ [j]) := by
          simp only [mark_collect]
          rw [if_neg hc]
        rw [hstep] at hq ⊢
        rcases List.mem_cons.mp hd with rfl | hd
        · refine Or.inl ⟨d, ?_, rfl⟩
          exact mark_collect_mem_of_mem g fuel _ _ d (List.mem_append_right s
            (List.mem_singleton_self d))
        · exact ih _ _ hq d (List.mem_append_left _ hd)

theorem mark_collect_entries (g : Cache) (WK : WellKeyed g) :
    ∀ (fuel : Nat) (q s : List UnitData),
      (∀ d ∈ q, g d.unit = d) → (∀ d ∈ s, g d.unit = d) →
      ∀ d ∈ (mark_collect g fuel q s).1, g d.unit = d := by
  intro fuel
  induction fuel with
  | zero =>
    intro q s _ hs
    simpa [mark_collect] using hs
  | succ fuel ih =>
    intro q s hq hs
    cases q with
    | nil => simpa [mark_collect] using hs
    | cons j q =>
      by_cases hc : (contains_unit s j || lvl_valid j.mci) = true
      · have hstep : mark_collect g (fuel + 1) (j :: q) s = mark_collect g fuel q s := by
          simp [mark_collect, hc]
        rw [hstep]
        exact ih q s (fun d hd => hq d (List.mem_cons_of_mem _ hd)) hs
      · have hstep : mark_collect g (fuel + 1) (j :: q) s
            = mark_collect g fuel (q ++ j.parents.map g) (s ++ [j]) := by
          simp only [mark_collect]
          rw [if_neg hc]
        rw [hstep]
        refine ih _ _ ?_ ?_
        · intro d hd
          rcases List.mem_append.mp hd with hd | hd
          · exact hq d (List.mem_cons_of_mem _ hd)
          · rcases List.mem_map.mp hd with ⟨p, _, rfl⟩
            rw [WK p]
        · intro d hd
          rcases List.mem_append.mp hd with hd | hd
          · exact hs d hd
          · have hdj : d = j := List.mem_singleton.mp hd
            rw [hdj]
            exact hq j (List.mem_cons_self j q)

theorem mark_collect_mci_invalid (g : Cache) :
    ∀ (fuel : Nat) (q s : List UnitData),
      (∀ d ∈ s, lvl_valid d.mci = false) →
      ∀ d ∈ (mark_collect g fuel q s).1, lvl_valid d.mci = false := by
  intro fuel
  induction fuel with
  | zero =>
    intro q s hs
    simpa [mark_collect] using hs
  | succ fuel ih =>
    intro q s hs
    cases q with
    | nil => simpa [mark_collect] using hs
    | cons j q =>
      by_cases hc : (contains_unit s j || lvl_valid j.mci) = true
      · have hstep : mark_collect g (fuel + 1) (j :: q) s = mark_collect g fuel q s := by
          simp [mark_collect, hc]
        rw [hstep]
        exact ih q s hs
      · have hstep : mark_collect g (fuel + 1) (j :: q) s
            = mark_collect g fuel (q ++ j.parents.map g) (s ++ [j]) := by
          simp only [mark_collect]
          rw [if_neg hc]
        rw [hstep]
        refine ih _ _ ?_
        intro d hd
        rcases List.mem_append.mp hd with hd | hd
        · exact hs d hd
        · have hdj : d = j := List.mem_singleton.mp hd
          rw [hdj]
          have hcf : (contains_unit s j || lvl_valid j.mci) = false := by
            simp only [Bool.not_eq_true] at hc
            exact hc
          rcases Bool.or_eq_false_iff.mp hcf with ⟨_, hmci⟩
          exact hmci

theorem mark_collect_nodup (g : Cache) :
    ∀ (fuel : Nat) (q s : List UnitData),
      (s.map (fun d => d.unit)).Nodup →
      ((mark_collect g fuel q s).1.map (fun d => d.unit)).Nodup := by
  intro fuel
  induction fuel with
  | zero =>
    intro q s hs
    simpa [mark_collect] using hs
  | succ fuel ih =>
    intro q s hs
    cases q with
    | nil => simpa [mark_collect] using hs
    | cons j q =>
      by_cases hc : (contains_unit s j || lvl_valid j.mci) = true
      · have hstep : mark_collect g (fuel + 1) (j :: q) s = mark_collect g fuel q s := by
          simp [mark_collect, hc]
        rw [hstep]
        exact ih q s hs
      · have hstep : mark_collect g (fuel + 1) (j :: q) s
            = mark_collect g fuel (q ++ j.parents.map g) (s ++ [j]) := by
          simp only [mark_collect]
          rw [if_neg hc]
        rw [hstep]
        refine ih _ _ ?_
        have hcf : (contains_unit s j || lvl_valid j.mci) = false := by
          simp only [Bool.not_eq_true] at hc
          exact hc
        rcases Bool.or_eq_false_iff.mp hcf with ⟨hcont, _⟩
        have hnotin : j.unit ∉ s.map (fun d => d.unit) := by
          intro hmem
          rcases List.mem_map.mp hmem with ⟨e, he, heq⟩
          have hct : contains_unit s j = true :=
            List.any_eq_true.mpr ⟨e, he, beq_iff_eq.mpr heq⟩
          rw [hct] at hcont
          exact absurd hcont (by simp)
        rw [List.map_append]
        simp only [List.map_cons, List.map_nil]
        exact List.Nodup.append hs (List.nodup_singleton _)
          (by
            intro x hx hx2
            rcases List.mem_singleton.mp hx2 with rfl
            exact hnotin hx)

theorem mark_collect_closure (g : Cache) (WK : WellKeyed g) :
    ∀ (fuel : Nat) (q s : List UnitData),
      (∀ d ∈ q, g d.unit = d) → (∀ d ∈ s, g d.unit = d) →
      (mark_collect g fuel q s).2 = [] →
      ∀ d ∈ (mark_collect g fuel q s).1, d ∈ s ∨
        ∀ p ∈ (g d.unit).parents,
          (∃ e ∈ (mark_collect g fuel q s).1, e.unit = p) ∨
            lvl_valid (g p).mci = true := by
  intro fuel
  induction fuel with
  | zero =>
    intro q s _ _ _ d hd
    simp only [mark_collect] at hd
    exact Or.inl hd
  | succ fuel ih =>
    intro q s hq hs hdone d hd
    cases q with
    | nil =>
      simp only [mark_collect] at hd
      exact Or.inl hd
    | cons j q =>
      by_cases hc : (contains_unit s j || lvl_valid j.mci) = true
      · have hstep : mark_collect g (fuel + 1) (j :: q) s = mark_collect g fuel q s := by
          simp [mark_collect, hc]
        rw [hstep] at hdone hd ⊢
        exact ih q s (fun e he => hq e (List.mem_cons_of_mem _ he)) hs hdone d hd
      · have hstep : mark_collect g (fuel + 1) (j :: q) s
            = mark_collect g fuel (q ++ j.parents.map g) (s ++ [j]) := by
          simp only [mark_collect]
          rw [if_neg hc]
        rw [hstep] at hdone hd ⊢
        have hq2 : ∀ e ∈ q ++ j.parents.map g, g e.unit = e := by
          intro e he
          rcases List.mem_append.mp he with he | he
          · exact hq e (List.mem_cons_of_mem _ he)
          · rcases List.mem_map.mp he with ⟨p, _, rfl⟩
            rw [WK p]
        have hs2 : ∀ e ∈ s ++ [j], g e.unit = e := by
          intro e he
          rcases List.mem_append.mp he with he | he
          · exact hs e he
          · have hej : e = j := List.mem_singleton.mp he
            rw [hej]
            exact hq j (List.mem_cons_self j q)
        rcases ih _ _ hq2 hs2 hdone d hd with hds | hclo
        · rcases List.mem_append.mp hds with hds | hds
          · exact Or.inl hds
          · rcases List.mem_singleton.mp hds with rfl
            refine Or.inr ?_
            intro p hp
            have hju : (g d.unit).parents = d.parents := by
              rw [hq d (List.mem_cons_self d q)]
            rw [hju] at hp
            have hinq : g p ∈ q ++ d.parents.map g :=
              List.mem_append_right q (List.mem_map_of_mem g hp)
            rcases mark_collect_processed g fuel _ _ hdone (g p) hinq with h | h
            · rcases h with ⟨e, he, heq⟩
              exact Or.inl ⟨e, he, by rw [heq, WK p]⟩
            · rw [show (g p).mci = (g ((g p).unit)).mci from by rw [WK p]] at h
              rw [WK p] at h
              exact Or.inr h
        · exact Or.inr hclo

theorem mark_collect_sound (g : Cache) (WK : WellKeyed g) (m : String) :
    ∀ (fuel : Nat) (q s : List UnitData),
      (∀ d ∈ q, g d.unit = d) →
      (∀ d ∈ q, lvl_valid d.mci = false →
        (d.unit = m ∨ ∃ v, MciReach g m v ∧ d.unit ∈ (g v).parents)) →
      (∀ d ∈ s, MciReach g m d.unit) →
      ∀ d ∈ (mark_collect g fuel q s).1, MciReach g m d.unit := by
  intro fuel
  induction fuel with
  | zero =>
    intro q s _ _ hs
    simpa [mark_collect] using hs
  | succ fuel ih =>
    intro q s hq hqr hs
    cases q with
    | nil => simpa [mark_collect] using hs
    | cons j q =>
      by_cases hc : (contains_unit s j || lvl_valid j.mci) = true
      · have hstep : mark_collect g (fuel + 1) (j :: q) s = mark_collect g fuel q s := by
          simp [mark_collect, hc]
        rw [hstep]
        exact ih q s (fun e he => hq e (List.mem_cons_of_mem _ he))
          (fun e he => hqr e (List.mem_cons_of_mem _ he)) hs
      · have hstep : mark_collect g (fuel + 1) (j :: q) s
            = mark_collect g fuel (q ++ j.parents.map g) (s ++ [j]) := by
          simp only [mark_collect]
          rw [if_neg hc]
        rw [hstep]
        have hcf : (contains_unit s j || lvl_valid j.mci) = false := by
          simp only [Bool.not_eq_true] at hc
          exact hc
        rcases Bool.or_eq_false_iff.mp hcf with ⟨_, hmci⟩
        have hjr : MciReach g m j.unit := by
          rcases hqr j (List.mem_cons_self j q) hmci with hju | ⟨v, hv, hvp⟩
          · have : lvl_valid (g m).mci = false := by
              rw [← hju, hq j (List.mem_cons_self j q)]
              exact hmci
            rw [hju]
            exact MciReach.start this
          · refine MciReach.step v j.unit hv hvp ?_
            rw [hq j (List.mem_cons_self j q)]
            exact hmci
        refine ih _ _ ?_ ?_ ?_
        · intro e he
          rcases List.mem_append.mp he with he | he
          · exact hq e (List.mem_cons_of_mem _ he)
          · rcases List.mem_map.mp he with ⟨p, _, rfl⟩
            rw [WK p]
        · intro e he hmcie
          rcases List.mem_append.mp he with he | he
          · exact hqr e (List.mem_cons_of_mem _ he) hmcie
          · rcases List.mem_map.mp he with ⟨p, hp, rfl⟩
            refine Or.inr ⟨j.unit, hjr, ?_⟩
            rw [WK p, hq j (List.mem_cons_self j q)]
            exact hp
        · intro e he
          rcases List.mem_append.mp he with he | he
          · exact hs e he
          · rcases List.mem_singleton.mp he with rfl
            exact hjr

theorem mark_collect_complete (g : Cache) (WK : WellKeyed g) (m : String) (fuel : Nat)
    (hdone : (mark_collect g fuel [g m] []).2 = []) :
    ∀ u, MciReach g m u → ∃ e ∈ (mark_collect g fuel [g m] []).1, e.unit = u := by
  intro u hr
  induction hr with
  | start hm =>
    rcases mark_collect_processed g fuel [g m] [] hdone (g m)
        (List.mem_singleton_self _) with h | h
    · rcases h with ⟨e, he, heq⟩
      exact ⟨e, he, by rw [heq, WK m]⟩
    · rw [hm] at h
      exact absurd h (by simp)
  | step v p hv hp hpinv ih =>
    rcases ih with ⟨e, he, heq⟩
    have hclo := mark_collect_closure g WK fuel [g m] []
      (by
        intro d hd
        rcases List.mem_singleton.mp hd with rfl
        rw [WK m])
      (by intro d hd; cases hd) hdone e he
    rcases hclo with hes | hclo
    · cases hes
    · have hp' : p ∈ (g e.unit).parents := by
        rw [heq]
        exact hp
      rcases hclo p hp' with h | h
      · exact h
      · rw [hpinv] at h
        exact absurd h (by simp)

theorem lvl_lt_trans (x y z : Level) (h1 : lvl_lt x y = true) (h2 : lvl_lt y z = true) :
    lvl_lt x z = true := by
  cases x <;> cases y <;> cases z <;> simp_all [lvl_lt] <;> omega

theorem lvl_lt_of_lt_eq (x y z : Level) (h1 : lvl_lt x y = true) (h2 : lvl_eq y z = true) :
    lvl_lt x z = true := by
  cases x <;> cases y <;> cases z <;> simp_all [lvl_lt, lvl_eq] <;> omega

theorem lvl_lt_of_eq_lt (x y z : Level) (h1 : lvl_eq x y = true) (h2 : lvl_lt y z = true) :
    lvl_lt x z = true := by
  cases x <;> cases y <;> cases z <;> simp_all [lvl_lt, lvl_eq] <;> omega

theorem lvl_eq_trans (x y z : Level) (h1 : lvl_eq x y = true) (h2 : lvl_eq y z = true) :
    lvl_eq x z = true := by
  cases x <;> cases y <;> cases z <;> simp_all [lvl_eq]

theorem lex_le_trans (a b c : UnitData) (h1 : lex_le a b = true) (h2 : lex_le b c = true) :
    lex_le a c = true := by
  simp only [lex_le, Bool.or_eq_true, Bool.and_eq_true] at h1 h2 ⊢
  rcases h1 with h1 | ⟨h1e, h1s⟩ <;> rcases h2 with h2 | ⟨h2e, h2s⟩
  · exact Or.inl (lvl_lt_trans _ _ _ h1 h2)
  · exact Or.inl (lvl_lt_of_lt_eq _ _ _ h1 h2e)
  · exact Or.inl (lvl_lt_of_eq_lt _ _ _ h1e h2)
  · exact Or.inr ⟨lvl_eq_trans _ _ _ h1e h2e, str_le_trans _ _ _ h1s h2s⟩

theorem lex_le_total_on (a b : UnitData) (ha : (a.level).isSome = true)
    (hb : (b.level).isSome = true) : lex_le a b = true ∨ lex_le b a = true := by
  rcases Option.isSome_iff_exists.mp ha with ⟨av, hav⟩
  rcases Option.isSome_iff_exists.mp hb with ⟨bv, hbv⟩
  simp only [lex_le, hav, hbv, Bool.or_eq_true, Bool.and_eq_true]
  rcases lt_trichotomy av bv with h | h | h
  · exact Or.inl (Or.inl (by simp [lvl_lt, h]))
  · subst h
    rcases str_le_total a.unit b.unit with hs | hs
    · exact Or.inl (Or.inr ⟨by simp [lvl_eq], hs⟩)
    · exact Or.inr (Or.inr ⟨by simp [lvl_eq], hs⟩)
  · exact Or.inr (Or.inl (by simp [lvl_lt, h]))

/-- The limci view of the cache after the first assignments of a batch
have been written: later assignments read the values written by earlier
ones. -/
def limci_state (base : String → Level) : List MarkAssign → String → Level
  | [], h => base h
  | a :: rest, h => limci_state (fun x => if x = a.unit then a.limci else base x) rest h

theorem limci_state_of_not_mem :
    ∀ (l : List MarkAssign) (base : String → Level) (h : String),
      (∀ a ∈ l, a.unit ≠ h) → limci_state base l h = base h := by
  intro l
  induction l with
  | nil =>
    intro base h _
    rfl
  | cons a rest ih =>
    intro base h hne
    simp only [limci_state]
    rw [ih _ h (fun b hb => hne b (List.mem_cons_of_mem _ hb))]
    have hna : ¬(h = a.unit) := fun heq => hne a (List.mem_cons_self a rest) heq.symm
    rw [if_neg hna]

theorem mark_assign_map_unit (g : Cache) (mci : Level) :
    ∀ (l : List UnitData) (sub : Level) (st : String → Level),
      (mark_assign g mci l sub st).map (fun a => a.unit) = l.map (fun d => d.unit) := by
  intro l
  induction l with
  | nil =>
    intro sub st
    rfl
  | cons j rest ih =>
    intro sub st
    simp only [mark_assign, List.map_cons]
    rw [ih]

theorem mark_assign_map_sub (g : Cache) (mci : Level) :
    ∀ (l : List UnitData) (sub : Level) (st : String → Level),
      (mark_assign g mci l sub st).map (fun a => a.sub_mci)
        = (List.range l.length).map (fun i => lvl_addN sub i) := by
  intro l
  induction l with
  | nil =>
    intro sub st
    rfl
  | cons j rest ih =>
    intro sub st
    simp only [mark_assign, List.map_cons, List.length_cons, List.range_succ_eq_map,
      List.map_map, ih]
    congr 1
    · exact (lvl_addN_zero sub).symm
    · congr 1
      funext i
      simp only [Function.comp_apply]
      rw [lvl_addN_add1]

theorem mark_assign_mci_eq (g : Cache) (mci : Level) :
    ∀ (l : List UnitData) (sub : Level) (st : String → Level),
      ∀ a ∈ mark_assign g mci l sub st, a.mci = mci := by
  intro l
  induction l with
  | nil =>
    intro sub st a ha
    cases ha
  | cons j rest ih =>
    intro sub st a ha
    simp only [mark_assign] at ha
    rcases List.mem_cons.mp ha with rfl | ha
    · rfl
    · exact ih _ _ a ha

theorem mark_assign_get (g : Cache) (mci : Level) :
    ∀ (l : List UnitData) (sub : Level) (st : String → Level) (i : Nat) (A : MarkAssign),
      (mark_assign g mci l sub st).get? i = some A →
      ∃ B, l.get? i = some B ∧ A.unit = B.unit ∧
        A.limci =
          (if lvl_valid (limci_state st ((mark_assign g mci l sub st).take i) B.unit)
           then limci_state st ((mark_assign g mci l sub st).take i) B.unit
           else B.parents.foldl
             (fun acc p =>
               if lvl_lt acc (limci_state st ((mark_assign g mci l sub st).take i) p)
               then limci_state st ((mark_assign g mci l sub st).take i) p else acc)
             (some 0)) := by
  intro l
  induction l with
  | nil =>
    intro sub st i A h
    simp [mark_assign] at h
  | cons j rest ih =>
    intro sub st i A h
    cases i with
    | zero =>
      simp only [mark_assign, List.get?] at h
      rcases Option.some.injEq _ _ ▸ h with rfl
      exact ⟨j, rfl, rfl, rfl⟩
    | succ i =>
      simp only [mark_assign, List.get?] at h ⊢
      exact ih _ _ i A h

theorem take_units_ne :
    ∀ (l : List MarkAssign), (l.map (fun a => a.unit)).Nodup →
      ∀ (i : Nat) (A : MarkAssign), l.get? i = some A →
      ∀ a ∈ l.take i, a.unit ≠ A.unit := by
  intro l
  induction l with
  | nil =>
    intro _ i A h
    simp [List.get?] at h
  | cons x rest ih =>
    intro hnd i A h
    cases i with
    | zero =>
      intro a ha
      simp [List.take] at ha
    | succ i =>
      simp only [List.get?] at h
      simp only [List.map_cons, List.nodup_cons] at hnd
      intro a ha
      simp only [List.take, List.mem_cons] at ha
      rcases ha with rfl | ha
      · intro heq
        have hAmem : A ∈ rest := List.get?_mem h
        exact hnd.1 (heq ▸ List.mem_map_of_mem (fun b => b.unit) hAmem)
      · exact ih hnd.2 i A h a ha

/-- C3: when a main-chain joint `m` is promoted with a new mci and
`mark_main_chain_joint_stable` runs to completion (BFS queue drained;
`m` not yet mci-assigned; the in-batch joints other than `m` carry no
limci yet; the new mci is a set level; all collected levels are set):
(a) the collected joints are exactly the not-yet-mci-assigned ancestors
of `m` (BFS up through parents, stopping at units whose mci is already
set), without duplicates; (b) they are processed sorted by level
ascending then unit hash ascending (a permutation of the collected
set); (c) the business-worker push order is that sorted order; (d)
sub_mci is assigned 0, 1, 2, … in that order; (e) every assignment
carries mci = the new mci; (f) `m` itself gets limci = mci, and every
other joint gets limci = the maximum of its parents' limci at its turn
(floored at `Level::ZERO`), parents assigned earlier in the batch
contributing their newly assigned value. -/
theorem C3_mark_stable_assignment :
    ∀ (g : Cache) (m : String) (mci : Level) (fuel : Nat),
      WellKeyed g →
      (mark_main_chain_joint_stable g m mci fuel).2 = [] →
      lvl_valid (g m).mci = false →
      (∀ d ∈ (mark_collect g fuel [g m] []).1, d.unit ≠ m → d.limci = none) →
      (∀ d ∈ (mark_collect g fuel [g m] []).1, (d.level).isSome = true) →
      lvl_valid mci = true →
      (∀ u : String,
        (∃ d ∈ (mark_collect g fuel [g m] []).1, d.unit = u) ↔ MciReach g m u) ∧
      ((mark_collect g fuel [g m] []).1.map (fun d => d.unit)).Nodup ∧
      List.Pairwise (fun a b => lex_le a b = true)
        (sort_le lex_le (mark_collect g fuel [g m] []).1) ∧
      List.Perm (sort_le lex_le (mark_collect g fuel [g m] []).1)
        (mark_collect g fuel [g m] []).1 ∧
      (mark_main_chain_joint_stable g m mci fuel).1.map (fun a => a.unit)
        = (sort_le lex_le (mark_collect g fuel [g m] []).1).map (fun d => d.unit) ∧
      (mark_main_chain_joint_stable g m mci fuel).1.map (fun a => a.sub_mci)
        = (List.range (sort_le lex_le (mark_collect g fuel [g m] []).1).length).map
            (fun i => lvl_addN (some 0) i) ∧
      (∀ a ∈ (mark_main_chain_joint_stable g m mci fuel).1, a.mci = mci) ∧
      (∀ (i : Nat) (A : MarkAssign),
        (mark_main_chain_joint_stable g m mci fuel).1.get? i = some A →
        ∃ B, (sort_le lex_le (mark_collect g fuel [g m] []).1).get? i = some B ∧
          A.unit = B.unit ∧
          (B.unit = m → A.limci = mci) ∧
          (B.unit ≠ m → A.limci = B.parents.foldl
            (fun acc p =>
              if lvl_lt acc (limci_state (fun h => if h = m then mci else (g h).limci)
                  ((mark_main_chain_joint_stable g m mci fuel).1.take i) p)
              then limci_state (fun h => if h = m then mci else (g h).limci)
                  ((mark_main_chain_joint_stable g m mci fuel).1.take i) p
              else acc) (some 0))) := by
  intro g m mci fuel WK hdone0 hm H4 H6 H5
  have hdone : (mark_collect g fuel [g m] []).2 = [] := hdone0
  have hMM : (mark_main_chain_joint_stable g m mci fuel).1
      = mark_assign g mci (sort_le lex_le (mark_collect g fuel [g m] []).1) (some 0)
          (fun h => if h = m then mci else (g h).limci) := rfl
  have hentries : ∀ d ∈ (mark_collect g fuel [g m] []).1, g d.unit = d :=
    mark_collect_entries g WK fuel [g m] []
      (by
        intro d hd
        rcases List.mem_singleton.mp hd with rfl
        rw [WK m])
      (by intro d hd; cases hd)
  have hsound : ∀ d ∈ (mark_collect g fuel [g m] []).1, MciReach g m d.unit :=
    mark_collect_sound g WK m fuel [g m] []
      (by
        intro d hd
        rcases List.mem_singleton.mp hd with rfl
        rw [WK m])
      (by
        intro d hd _
        rcases List.mem_singleton.mp hd with rfl
        exact Or.inl (WK m))
      (by intro d hd; cases hd)
  have hnodupC : ((mark_collect g fuel [g m] []).1.map (fun d => d.unit)).Nodup :=
    mark_collect_nodup g fuel [g m] [] (by simp)
  have hperm := sort_le_perm lex_le (mark_collect g fuel [g m] []).1
  have hsortednodup : ((sort_le lex_le (mark_collect g fuel [g m] []).1).map
      (fun d => d.unit)).Nodup :=
    ((hperm.map (fun d => d.unit)).nodup_iff).mpr hnodupC
  refine ⟨?_, hnodupC, ?_, hperm, ?_, ?_, ?_, ?_⟩
  · intro u
    constructor
    · rintro ⟨d, hd, rfl⟩
      exact hsound d hd
    · intro hr
      exact mark_collect_complete g WK m fuel hdone u hr
  · exact sort_le_pairwise lex_le _ lex_le_trans
      (fun x hx y hy => lex_le_total_on x y (H6 x hx) (H6 y hy))
  · rw [hMM]
    exact mark_assign_map_unit g mci _ _ _
  · rw [hMM]
    exact mark_assign_map_sub g mci _ _ _
  · rw [hMM]
    exact mark_assign_mci_eq g mci _ _ _
  · intro i A hget
    rw [hMM] at hget ⊢
    rcases mark_assign_get g mci (sort_le lex_le (mark_collect g fuel [g m] []).1)
      (some 0) (fun h => if h = m then mci else (g h).limci) i A hget
      with ⟨B, hB, hAB, hlim⟩
    have hassigns_nodup : ((mark_assign g mci
        (sort_le lex_le (mark_collect g fuel [g m] []).1) (some 0)
        (fun h => if h = m then mci else (g h).limci)).map (fun a => a.unit)).Nodup := by
      rw [mark_assign_map_unit]
      exact hsortednodup
    have htk := take_units_ne _ hassigns_nodup i A hget
    have htk2 : ∀ a ∈ (mark_assign g mci
        (sort_le lex_le (mark_collect g fuel [g m] []).1) (some 0)
        (fun h => if h = m then mci else (g h).limci)).take i, a.unit ≠ B.unit := by
      intro a ha
      rw [← hAB]
      exact htk a ha
    have hstB : limci_state (fun h => if h = m then mci else (g h).limci)
        ((mark_assign g mci (sort_le lex_le (mark_collect g fuel [g m] []).1) (some 0)
          (fun h => if h = m then mci else (g h).limci)).take i) B.unit
        = (if B.unit = m then mci else (g B.unit).limci) :=
      limci_state_of_not_mem _ _ _ htk2
    refine ⟨B, hB, hAB, ?_, ?_⟩
    · intro hBm
      rw [hlim, hstB, if_pos hBm, if_pos ?_]
      exact H5
    · intro hBm
      have hBC : B ∈ (mark_collect g fuel [g m] []).1 :=
        hperm.mem_iff.mp (List.get?_mem hB)
      have hBlim : (g B.unit).limci = none := by
        rw [hentries B hBC]
        exact H4 B hBC hBm
      rw [hlim, hstB, if_neg hBm, hBlim, if_neg ?_]
      simp [lvl_valid]

/-- A three-unit cache (stable "s", unstable "p", main-chain joint "m")
for the C3 witness. -/
def g3 : Cache := fun h =>
  if h = "m" then { baseUnit h with parents := ["p", "s"], level := some 2 }
  else if h = "p" then { baseUnit h with parents := ["s"], level := some 1 }
  else if h = "s" then { baseUnit h with mci := some 0, limci := some 0 }
  else baseUnit h

theorem C3_mark_stable_assignment_witness :
    ((mark_main_chain_joint_stable g3 "m" (some 1) 10).1.map (fun a => a.unit)
      = (sort_le lex_le (mark_collect g3 10 [g3 "m"] []).1).map (fun d => d.unit)) ∧
    (∀ a ∈ (mark_main_chain_joint_stable g3 "m" (some 1) 10).1, a.mci = some 1) ∧
    MciReach g3 "m" "p" := by
  have h := C3_mark_stable_assignment g3 "m" (some 1) 10
    (by
      intro h
      by_cases h1 : h = "m"
      · simp [g3, baseUnit, h1]
      · by_cases h2 : h = "p"
        · simp [g3, baseUnit, h1, h2]
        · by_cases h3 : h = "s"
          · simp [g3, baseUnit, h1, h2, h3]
          · simp [g3, baseUnit, h1, h2, h3])
    (by decide) (by decide) (by decide) (by decide) (by decide)
  refine ⟨h.2.2.2.2.1, h.2.2.2.2.2.2.1, ?_⟩
  exact (h.1 "p").mp ⟨g3 "p", by decide, by decide⟩

/-! ### Serial-conflict detector (serial_check.rs) — claim C5 -/

/-- `is_authored_by_any_addr` (serial_check.rs lines 9-17): the joint
has at least one author among the given addresses. -/
def is_authored_by_any_addr (j : UnitData) (addresses : List String) : Bool :=
  j.authors.any (fun a => addresses.contains a)

/-- The visited-gated enqueue step shared by the BFS loops of
serial_check.rs (`if visited.insert(key) { queue.push_back(..) }`):
state is (queue, visited). -/
def visit_push (s : List String × List String) (p : String) :
    List String × List String :=
  if s.2.contains p then s else (s.1 ++ [p], p :: s.2)

/-- The BFS loop of `get_unstable_ancestor_units` (serial_check.rs
lines 83-97): pop a unit; a stable unit stops the walk; an unstable
unit enters the result set and its not-yet-visited parents are
enqueued.  Fuel bounds the loop; returns (result, remaining queue,
visited). -/
def gua_run (g : Cache) : Nat → List String → List String → List String →
    (List String × List String × List String)
  | 0, queue, visited, result => (result, queue, visited)
  | _fuel + 1, [], visited, result => (result, [], visited)
  | fuel + 1, u :: queue, visited, result =>
    if (g u).is_stable then gua_run g fuel queue visited result
    else
      let result2 := if result.contains u then result else result ++ [u]
      let st := (g u).parents.foldl visit_push (queue, visited)
      gua_run g fuel st.1 st.2 result2

/-- `get_unstable_ancestor_units` (serial_check.rs lines 70-100): seed
the queue with the not-yet-visited start joints (recording them in
visited, which arrives pre-seeded with the caller's set), then run the
BFS.  Returns the result set and the remaining queue (empty when the
loop ran to completion, which is how the Rust loop exits). -/
def get_unstable_ancestor_units (g : Cache) (fuel : Nat) (joints : List String)
    (visited : List String) : List String × List String :=
  let init := joints.foldl visit_push ([], visited)
  let r := gua_run g fuel init.1 init.2 []
  (r.1, r.2.1)

/-- The BFS loop of `get_descendant_units` (serial_check.rs lines
103-121): walk down through children, recording each first-seen child
in visited — which is the returned set; the start joint itself is not
recorded.  Returns (visited, remaining queue). -/
def desc_run (g : Cache) : Nat → List String → List String →
    (List String × List String)
  | 0, queue, visited => (visited, queue)
  | _fuel + 1, [], visited => (visited, [])
  | fuel + 1, u :: queue, visited =>
    let st := (g u).children.foldl visit_push (queue, visited)
    desc_run g fuel st.1 st.2

/-- `get_descendant_units` (serial_check.rs lines 103-121). -/
def get_descendant_units (g : Cache) (fuel : Nat) (joint : String) :
    List String × List String :=
  desc_run g fuel [joint] []

/-- `is_unstable_joint_non_serial` (serial_check.rs lines 21-67):
A2 = unstable ancestors of P (with P itself); A3 = unstable ancestors
of the free joints, seeded with A2 as visited; A4 = descendants of P
(empty when P is free); A5 = A3 minus A4; P is non-serial when some
unit of A5 shares an author address with P and is not FinalBad. -/
def is_unstable_joint_non_serial (g : Cache) (free_joints : List String) (fuel : Nat)
    (P : String) : Bool :=
  let unstable_ancestors := (get_unstable_ancestor_units g fuel [P] []).1
  let no_see_units :=
    (get_unstable_ancestor_units g fuel free_joints unstable_ancestors).1
  let descendants :=
    if (g P).children.isEmpty then [] else (get_descendant_units g fuel P).1
  let no_include_relationship_units :=
    no_see_units.filter (fun u => !descendants.contains u)
  let addresses := (g P).authors
  no_include_relationship_units.any (fun u =>
    is_authored_by_any_addr (g u) addresses
      && (g u).sequence != JointSequence.FinalBad)

/-- `validate_unstable_joint_serial` (business/mod.rs lines 465-474). -/
def validate_unstable_joint_serial (g : Cache) (free_joints : List String) (fuel : Nat)
    (P : String) : JointSequence :=
  if is_unstable_joint_non_serial g free_joints fuel P then JointSequence.NonserialBad
  else JointSequence.Good

/-- The message loop of `validate_unstable_joint` (business/mod.rs
lines 315-331): validate each message against the tentative mirror
(TempBad on failure, earlier applies retained), apply it on success
(`none` models a propagated apply error). -/
def validate_unstable_msgs {S : Type} (ops : SubOps S) (j : UnitData) :
    Nat → Nat → S → Option (JointSequence × S)
  | 0, _, s => some (JointSequence.Good, s)
  | n + 1, i, s =>
    if ops.validateMsg s j i then
      match ops.applyMsg s j i with
      | none => none
      | some s2 => validate_unstable_msgs ops j n (i + 1) s2
    else some (JointSequence.TempBad, s)

/-- `validate_unstable_joint` (business/mod.rs lines 307-334): the
serial check first; a non-Good outcome is returned as the joint's
sequence, otherwise the messages are validated and applied against the
tentative mirror. -/
def validate_unstable_joint {S : Type} (ops : SubOps S) (g : Cache)
    (free_joints : List String) (fuel : Nat) (temp : S) (P : String) :
    Option (JointSequence × S) :=
  let state := validate_unstable_joint_serial g free_joints fuel P
  if state != JointSequence.Good then some (state, temp)
  else validate_unstable_msgs ops (g P) (g P).msg_count 0 temp

/-- Unstable ancestry as walked by `get_unstable_ancestor_units`:
`UReach g starts blocked u` holds when `u` is unstable, not blocked,
and reachable from a start joint through parent edges along unstable
unblocked joints (a start joint itself must be unstable and
unblocked). -/
inductive UReach (g : Cache) (starts blocked : List String) : String → Prop where
  | start : ∀ u, u ∈ starts → u ∉ blocked → (g u).is_stable = false →
      UReach g starts blocked u
  | step : ∀ v p, UReach g starts blocked v → p ∈ (g v).parents → p ∉ blocked →
      (g p).is_stable = false → UReach g starts blocked p

/-- Strict descendants as walked by `get_descendant_units`: reachable
through one or more child edges. -/
inductive DescReach (g : Cache) (root : String) : String → Prop where
  | child : ∀ c, c ∈ (g root).children → DescReach g root c
  | step : ∀ v c, DescReach g root v → c ∈ (g v).children → DescReach g root c

theorem str_contains_iff (l : List String) (a : String) : l.contains a = true ↔ a ∈ l := by
  simp

theorem visit_push_queue_prefix :
    ∀ (ps q v : List String), ∃ t, (ps.foldl visit_push (q, v)).1 = q ++ t := by
  intro ps
  induction ps with
  | nil =>
    intro q v
    exact ⟨[], by simp⟩
  | cons p ps ih =>
    intro q v
    simp only [List.foldl_cons]
    by_cases hv : v.contains p = true
    · rw [show visit_push (q, v) p = (q, v) from by simp only [visit_push]; rw [if_pos hv]]
      exact ih q v
    · rw [show visit_push (q, v) p = (q ++ [p], p :: v) from by simp only [visit_push]; rw [if_neg hv]]
      rcases ih (q ++ [p]) (p :: v) with ⟨t, ht⟩
      exact ⟨p :: t, by rw [ht]; simp⟩

theorem visit_push_vis_mono :
    ∀ (ps q v : List String), ∀ x ∈ v, x ∈ (ps.foldl visit_push (q, v)).2 := by
  intro ps
  induction ps with
  | nil =>
    intro q v x hx
    exact hx
  | cons p ps ih =>
    intro q v x hx
    simp only [List.foldl_cons]
    by_cases hv : v.contains p = true
    · rw [show visit_push (q, v) p = (q, v) from by simp only [visit_push]; rw [if_pos hv]]
      exact ih q v x hx
    · rw [show visit_push (q, v) p = (q ++ [p], p :: v) from by simp only [visit_push]; rw [if_neg hv]]
      exact ih (q ++ [p]) (p :: v) x (List.mem_cons_of_mem _ hx)

theorem visit_push_queue_src :
    ∀ (ps q v : List String), ∀ x ∈ (ps.foldl visit_push (q, v)).1, x ∈ q ∨ x ∈ ps := by
  intro ps
  induction ps with
  | nil =>
    intro q v x hx
    exact Or.inl hx
  | cons p ps ih =>
    intro q v x hx
    simp only [List.foldl_cons] at hx
    by_cases hv : v.contains p = true
    · rw [show visit_push (q, v) p = (q, v) from by simp only [visit_push]; rw [if_pos hv]] at hx
      rcases ih q v x hx with h | h
      · exact Or.inl h
      · exact Or.inr (List.mem_cons_of_mem _ h)
    · rw [show visit_push (q, v) p = (q ++ [p], p :: v) from by simp only [visit_push]; rw [if_neg hv]] at hx
      rcases ih (q ++ [p]) (p :: v) x hx with h | h
      · rcases List.mem_append.mp h with h | h
        · exact Or.inl h
        · rcases List.mem_singleton.mp h with rfl
          exact Or.inr (List.mem_cons_self _ _)
      · exact Or.inr (List.mem_cons_of_mem _ h)

theorem visit_push_vis_src :
    ∀ (ps q v : List String), ∀ x ∈ (ps.foldl visit_push (q, v)).2,
      x ∈ v ∨ x ∈ (ps.foldl visit_push (q, v)).1 := by
  intro ps
  induction ps with
  | nil =>
    intro q v x hx
    exact Or.inl hx
  | cons p ps ih =>
    intro q v x hx
    simp only [List.foldl_cons] at hx ⊢
    by_cases hv : v.contains p = true
    · rw [show visit_push (q, v) p = (q, v) from by simp only [visit_push]; rw [if_pos hv]] at hx ⊢
      exact ih q v x hx
    · rw [show visit_push (q, v) p = (q ++ [p], p :: v) from by simp only [visit_push]; rw [if_neg hv]]
        at hx ⊢
      rcases ih (q ++ [p]) (p :: v) x hx with h | h
      · rcases List.mem_cons.mp h with hxp | h
        · rcases visit_push_queue_prefix ps (q ++ [p]) (p :: v) with ⟨t, ht⟩
          refine Or.inr ?_
          rw [ht, hxp]
          exact List.mem_append_left t (List.mem_append_right q (List.mem_singleton_self _))
        · exact Or.inl h
      · exact Or.inr h

theorem visit_push_mem_vis :
    ∀ (ps q v : List String), ∀ p ∈ ps, p ∈ (ps.foldl visit_push (q, v)).2 := by
  intro ps
  induction ps with
  | nil =>
    intro q v p hp
    cases hp
  | cons p0 ps ih =>
    intro q v p hp
    simp only [List.foldl_cons]
    rcases List.mem_cons.mp hp with rfl | hp
    · by_cases hv : v.contains p = true
      · rw [show visit_push (q, v) p = (q, v) from by simp only [visit_push]; rw [if_pos hv]]
        exact visit_push_vis_mono ps q v p ((str_contains_iff v p).mp hv)
      · rw [show visit_push (q, v) p = (q ++ [p], p :: v) from by simp only [visit_push]; rw [if_neg hv]]
        exact visit_push_vis_mono ps (q ++ [p]) (p :: v) p (List.mem_cons_self _ _)
    · by_cases hv : v.contains p0 = true
      · rw [show visit_push (q, v) p0 = (q, v) from by simp only [visit_push]; rw [if_pos hv]]
        exact ih q v p hp
      · rw [show visit_push (q, v) p0 = (q ++ [p0], p0 :: v) from by simp only [visit_push]; rw [if_neg hv]]
        exact ih (q ++ [p0]) (p0 :: v) p hp

theorem visit_push_queue_fresh :
    ∀ (ps q v : List String), ∀ x ∈ (ps.foldl visit_push (q, v)).1, x ∈ q ∨ x ∉ v := by
  intro ps
  induction ps with
  | nil =>
    intro q v x hx
    exact Or.inl hx
  | cons p ps ih =>
    intro q v x hx
    simp only [List.foldl_cons] at hx
    by_cases hv : v.contains p = true
    · rw [show visit_push (q, v) p = (q, v) from by simp only [visit_push]; rw [if_pos hv]] at hx
      exact ih q v x hx
    · rw [show visit_push (q, v) p = (q ++ [p], p :: v) from by simp only [visit_push]; rw [if_neg hv]] at hx
      rcases ih (q ++ [p]) (p :: v) x hx with h | h
      · rcases List.mem_append.mp h with h | h
        · exact Or.inl h
        · rcases List.mem_singleton.mp h with rfl
          refine Or.inr ?_
          intro hmem
          exact hv ((str_contains_iff v x).mpr hmem)
      · exact Or.inr (fun hmem => h (List.mem_cons_of_mem _ hmem))

theorem gua_run_result_mono (g : Cache) :
    ∀ (fuel : Nat) (q v r : List String), ∃ t, (gua_run g fuel q v r).1 = r ++ t := by
  intro fuel
  induction fuel with
  | zero =>
    intro q v r
    exact ⟨[], by simp [gua_run]⟩
  | succ fuel ih =>
    intro q v r
    cases q with
    | nil => exact ⟨[], by simp [gua_run]⟩
    | cons u queue =>
      by_cases hst : (g u).is_stable = true
      · have hstep : gua_run g (fuel + 1) (u :: queue) v r = gua_run g fuel queue v r := by
          simp only [gua_run]
          rw [if_pos hst]
        rw [hstep]
        exact ih queue v r
      · have hstep : gua_run g (fuel + 1) (u :: queue) v r
            = gua_run g fuel ((g u).parents.foldl visit_push (queue, v)).1
                ((g u).parents.foldl visit_push (queue, v)).2
                (if r.contains u then r else r ++ [u]) := by
          simp only [gua_run]
          rw [if_neg hst]
        rw [hstep]
        by_cases hr : r.contains u = true
        · rw [if_pos hr]
          exact ih _ _ r
        · rw [if_neg hr]
          rcases ih ((g u).parents.foldl visit_push (queue, v)).1
            ((g u).parents.foldl visit_push (queue, v)).2 (r ++ [u]) with ⟨t, ht⟩
          exact ⟨u :: t, by rw [ht]; simp⟩

theorem gua_run_result_mem (g : Cache) (fuel : Nat) (q v r : List String)
    (x : String) (hx : x ∈ r) : x ∈ (gua_run g fuel q v r).1 := by
  rcases gua_run_result_mono g fuel q v r with ⟨t, ht⟩
  rw [ht]
  exact List.mem_append_left t hx

theorem gua_run_vis_mono (g : Cache) :
    ∀ (fuel : Nat) (q v r : List String), ∀ x ∈ v, x ∈ (gua_run g fuel q v r).2.2 := by
  intro fuel
  induction fuel with
  | zero =>
    intro q v r x hx
    simpa [gua_run] using hx
  | succ fuel ih =>
    intro q v r x hx
    cases q with
    | nil => simpa [gua_run] using hx
    | cons u queue =>
      by_cases hst : (g u).is_stable = true
      · have hstep : gua_run g (fuel + 1) (u :: queue) v r = gua_run g fuel queue v r := by
          simp only [gua_run]
          rw [if_pos hst]
        rw [hstep]
        exact ih queue v r x hx
      · have hstep : gua_run g (fuel + 1) (u :: queue) v r
            = gua_run g fuel ((g u).parents.foldl visit_push (queue, v)).1
                ((g u).parents.foldl visit_push (queue, v)).2
                (if r.contains u then r else r ++ [u]) := by
          simp only [gua_run]
          rw [if_neg hst]
        rw [hstep]
        exact ih _ _ _ x (visit_push_vis_mono (g u).parents queue v x hx)

theorem gua_run_processed (g : Cache) :
    ∀ (fuel : Nat) (q v r : List String),
      (gua_run g fuel q v r).2.1 = [] →
      ∀ u ∈ q, u ∈ (gua_run g fuel q v r).1 ∨ (g u).is_stable = true := by
  intro fuel
  induction fuel with
  | zero =>
    intro q v r hq u hu
    simp only [gua_run] at hq
    rw [hq] at hu
    cases hu
  | succ fuel ih =>
    intro q v r hq u hu
    cases q with
    | nil => cases hu
    | cons u0 queue =>
      by_cases hst : (g u0).is_stable = true
      · have hstep : gua_run g (fuel + 1) (u0 :: queue) v r = gua_run g fuel queue v r := by
          simp only [gua_run]
          rw [if_pos hst]
        rw [hstep] at hq ⊢
        rcases List.mem_cons.mp hu with rfl | hu
        · exact Or.inr hst
        · exact ih queue v r hq u hu
      · have hstep : gua_run g (fuel + 1) (u0 :: queue) v r
            = gua_run g fuel ((g u0).parents.foldl visit_push (queue, v)).1
                ((g u0).parents.foldl visit_push (queue, v)).2
                (if r.contains u0 then r else r ++ [u0]) := by
          simp only [gua_run]
          rw [if_neg hst]
        rw [hstep] at hq ⊢
        rcases List.mem_cons.mp hu with rfl | hu
        · refine Or.inl (gua_run_result_mem g fuel _ _ _ u ?_)
          by_cases hr : r.contains u = true
          · rw [if_pos hr]
            exact (str_contains_iff r u).mp hr
          · rw [if_neg hr]
            exact List.mem_append_right r (List.mem_singleton_self _)
        · refine ih _ _ _ hq u ?_
          rcases visit_push_queue_prefix (g u0).parents queue v with ⟨t, ht⟩
          rw [ht]
          exact List.mem_append_left t hu

theorem gua_run_ve (g : Cache) (blocked : List String) :
    ∀ (fuel : Nat) (q v r : List String),
      (gua_run g fuel q v r).2.1 = [] →
      (∀ x ∈ v, x ∈ blocked ∨ x ∈ q ∨ x ∈ r ∨ (g x).is_stable = true) →
      ∀ x ∈ (gua_run g fuel q v r).2.2,
        x ∈ blocked ∨ x ∈ (gua_run g fuel q v r).1 ∨ (g x).is_stable = true := by
  intro fuel
  induction fuel with
  | zero =>
    intro q v r hq hv x hx
    simp only [gua_run] at hq hx ⊢
    rcases hv x hx with h | h | h | h
    · exact Or.inl h
    · rw [hq] at h
      cases h
    · exact Or.inr (Or.inl h)
    · exact Or.inr (Or.inr h)
  | succ fuel ih =>
    intro q v r hq hv x hx
    cases q with
    | nil =>
      simp only [gua_run] at hq hx ⊢
      rcases hv x hx with h | h | h | h
      · exact Or.inl h
      · cases h
      · exact Or.inr (Or.inl h)
      · exact Or.inr (Or.inr h)
    | cons u0 queue =>
      by_cases hst : (g u0).is_stable = true
      · have hstep : gua_run g (fuel + 1) (u0 :: queue) v r = gua_run g fuel queue v r := by
          simp only [gua_run]
          rw [if_pos hst]
        rw [hstep] at hq hx ⊢
        refine ih queue v r hq ?_ x hx
        intro y hy
        rcases hv y hy with h | h | h | h
        · exact Or.inl h
        · rcases List.mem_cons.mp h with rfl | h
          · exact Or.inr (Or.inr (Or.inr hst))
          · exact Or.inr (Or.inl h)
        · exact Or.inr (Or.inr (Or.inl h))
        · exact Or.inr (Or.inr (Or.inr h))
      · have hstep : gua_run g (fuel + 1) (u0 :: queue) v r
            = gua_run g fuel ((g u0).parents.foldl visit_push (queue, v)).1
                ((g u0).parents.foldl visit_push (queue, v)).2
                (if r.contains u0 then r else r ++ [u0]) := by
          simp only [gua_run]
          rw [if_neg hst]
        rw [hstep] at hq hx ⊢
        refine ih _ _ _ hq ?_ x hx
        intro y hy
        rcases visit_push_vis_src (g u0).parents queue v y hy with h | h
        · rcases hv y h with h2 | h2 | h2 | h2
          · exact Or.inl h2
          · rcases List.mem_cons.mp h2 with rfl | h2
            · refine Or.inr (Or.inr (Or.inl ?_))
              by_cases hr : r.contains y = true
              · rw [if_pos hr]
                exact (str_contains_iff r y).mp hr
              · rw [if_neg hr]
                exact List.mem_append_right r (List.mem_singleton_self _)
            · refine Or.inr (Or.inl ?_)
              rcases visit_push_queue_prefix (g u0).parents queue v with ⟨t, ht⟩
              rw [ht]
              exact List.mem_append_left t h2
          · refine Or.inr (Or.inr (Or.inl ?_))
            by_cases hr : r.contains u0 = true
            · rw [if_pos hr]
              exact h2
            · rw [if_neg hr]
              exact List.mem_append_left _ h2
          · exact Or.inr (Or.inr (Or.inr h2))
        · exact Or.inr (Or.inl h)

theorem visit_push_vis_from :
    ∀ (ps q v : List String), ∀ x ∈ (ps.foldl visit_push (q, v)).2, x ∈ v ∨ x ∈ ps := by
  intro ps
  induction ps with
  | nil =>
    intro q v x hx
    exact Or.inl hx
  | cons p ps ih =>
    intro q v x hx
    simp only [List.foldl_cons] at hx
    by_cases hv : v.contains p = true
    · rw [show visit_push (q, v) p = (q, v) from by simp only [visit_push]; rw [if_pos hv]] at hx
      rcases ih q v x hx with h | h
      · exact Or.inl h
      · exact Or.inr (List.mem_cons_of_mem _ h)
    · rw [show visit_push (q, v) p = (q ++ [p], p :: v) from by simp only [visit_push]; rw [if_neg hv]] at hx
      rcases ih (q ++ [p]) (p :: v) x hx with h | h
      · rcases List.mem_cons.mp h with rfl | h
        · exact Or.inr (List.mem_cons_self _ _)
        · exact Or.inl h
      · exact Or.inr (List.mem_cons_of_mem _ h)

theorem gua_run_sound (g : Cache) (starts blocked : List String) :
    ∀ (fuel : Nat) (q v r : List String),
      (∀ x ∈ blocked, x ∈ v) →
      (∀ x ∈ q, (x ∈ starts ∧ x ∉ blocked) ∨
        ∃ w, UReach g starts blocked w ∧ x ∈ (g w).parents ∧ x ∉ blocked) →
      (∀ x ∈ r, UReach g starts blocked x) →
      ∀ x ∈ (gua_run g fuel q v r).1, UReach g starts blocked x := by
  intro fuel
  induction fuel with
  | zero =>
    intro q v r _ _ hr x hx
    simp only [gua_run] at hx
    exact hr x hx
  | succ fuel ih =>
    intro q v r hb hq hr x hx
    cases q with
    | nil =>
      simp only [gua_run] at hx
      exact hr x hx
    | cons u queue =>
      by_cases hst : (g u).is_stable = true
      · have hstep : gua_run g (fuel + 1) (u :: queue) v r = gua_run g fuel queue v r := by
          simp only [gua_run]
          rw [if_pos hst]
        rw [hstep] at hx
        refine ih queue v r hb (fun y hy => hq y (List.mem_cons_of_mem _ hy)) hr x hx
      · have hstep : gua_run g (fuel + 1) (u :: queue) v r
            = gua_run g fuel ((g u).parents.foldl visit_push (queue, v)).1
                ((g u).parents.foldl visit_push (queue, v)).2
                (if r.contains u then r else r ++ [u]) := by
          simp only [gua_run]
          rw [if_neg hst]
        rw [hstep] at hx
        have hsf : (g u).is_stable = false := by
          simpa using hst
        have hu : UReach g starts blocked u := by
          rcases hq u (List.mem_cons_self _ _) with ⟨hs, hnb⟩ | ⟨w, hw, hp, hnb⟩
          · exact UReach.start u hs hnb hsf
          · exact UReach.step w u hw hp hnb hsf
        refine ih _ _ _ ?_ ?_ ?_ x hx
        · intro y hy
          exact visit_push_vis_mono (g u).parents queue v y (hb y hy)
        · intro y hy
          rcases visit_push_queue_src (g u).parents queue v y hy with h | h
          · exact hq y (List.mem_cons_of_mem _ h)
          · rcases visit_push_queue_fresh (g u).parents queue v y hy with h2 | h2
            · exact hq y (List.mem_cons_of_mem _ h2)
            · exact Or.inr ⟨u, hu, h, fun hyb => h2 (hb y hyb)⟩
        · intro y hy
          by_cases hc : r.contains u = true
          · rw [if_pos hc] at hy
            exact hr y hy
          · rw [if_neg hc] at hy
            rcases List.mem_append.mp hy with h | h
            · exact hr y h
            · rcases List.mem_singleton.mp h with rfl
              exact hu

theorem gua_run_closure (g : Cache) :
    ∀ (fuel : Nat) (q v r : List String),
      (∀ x ∈ r, ∀ p ∈ (g x).parents, p ∈ v) →
      ∀ x ∈ (gua_run g fuel q v r).1, ∀ p ∈ (g x).parents,
        p ∈ (gua_run g fuel q v r).2.2 := by
  intro fuel
  induction fuel with
  | zero =>
    intro q v r hr x hx p hp
    simp only [gua_run] at hx ⊢
    exact hr x hx p hp
  | succ fuel ih =>
    intro q v r hr x hx p hp
    cases q with
    | nil =>
      simp only [gua_run] at hx ⊢
      exact hr x hx p hp
    | cons u queue =>
      by_cases hst : (g u).is_stable = true
      · have hstep : gua_run g (fuel + 1) (u :: queue) v r = gua_run g fuel queue v r := by
          simp only [gua_run]
          rw [if_pos hst]
        rw [hstep] at hx ⊢
        exact ih queue v r hr x hx p hp
      · have hstep : gua_run g (fuel + 1) (u :: queue) v r
            = gua_run g fuel ((g u).parents.foldl visit_push (queue, v)).1
                ((g u).parents.foldl visit_push (queue, v)).2
                (if r.contains u then r else r ++ [u]) := by
          simp only [gua_run]
          rw [if_neg hst]
        rw [hstep] at hx ⊢
        refine ih _ _ _ ?_ x hx p hp
        intro y hy p2 hp2
        by_cases hc : r.contains u = true
        · rw [if_pos hc] at hy
          exact visit_push_vis_mono (g u).parents queue v p2 (hr y hy p2 hp2)
        · rw [if_neg hc] at hy
          rcases List.mem_append.mp hy with h | h
          · exact visit_push_vis_mono (g u).parents queue v p2 (hr y h p2 hp2)
          · have hyu : y = u := List.mem_singleton.mp h
            rw [hyu] at hp2
            exact visit_push_mem_vis (g u).parents queue v p2 hp2

theorem gua_spec (g : Cache) (fuel : Nat) (starts blocked : List String)
    (hdrain : (get_unstable_ancestor_units g fuel starts blocked).2 = []) :
    ∀ u, u ∈ (get_unstable_ancestor_units g fuel starts blocked).1 ↔
      UReach g starts blocked u := by
  simp only [get_unstable_ancestor_units] at hdrain ⊢
  intro u
  constructor
  · intro hu
    refine gua_run_sound g starts blocked fuel _ _ [] ?_ ?_ ?_ u hu
    · intro y hy
      exact visit_push_vis_mono starts [] blocked y hy
    · intro y hy
      refine Or.inl ⟨?_, ?_⟩
      · rcases visit_push_queue_src starts [] blocked y hy with h | h
        · cases h
        · exact h
      · rcases visit_push_queue_fresh starts [] blocked y hy with h | h
        · cases h
        · exact h
    · intro y hy
      cases hy
  · intro hu
    induction hu with
    | start w hs hnb hsf =>
      have hw : w ∈ (starts.foldl visit_push ([], blocked)).1 := by
        have h2 := visit_push_mem_vis starts [] blocked w hs
        rcases visit_push_vis_src starts [] blocked w h2 with h | h
        · exact absurd h hnb
        · exact h
      rcases gua_run_processed g fuel _ _ [] hdrain w hw with h | h
      · exact h
      · rw [hsf] at h
        cases h
    | step w p hw hp hnb hsf ih =>
      have hwres := ih
      have hpv : p ∈ (gua_run g fuel (starts.foldl visit_push ([], blocked)).1
          (starts.foldl visit_push ([], blocked)).2 []).2.2 :=
        gua_run_closure g fuel _ _ [] (fun x hx => absurd hx (List.not_mem_nil x)) w hwres p hp
      have hve := gua_run_ve g blocked fuel _ _ [] hdrain ?_ p hpv
      · rcases hve with h | h | h
        · exact absurd h hnb
        · exact h
        · rw [hsf] at h
          cases h
      · intro x hx
        rcases visit_push_vis_src starts [] blocked x hx with h | h
        · exact Or.inl h
        · exact Or.inr (Or.inl h)

theorem ureach_unblock (g : Cache) (starts b2 : List String) (u : String)
    (h : UReach g starts b2 u) : UReach g starts [] u ∧ u ∉ b2 := by
  induction h with
  | start w hs hnb hsf =>
    exact ⟨UReach.start w hs (List.not_mem_nil w) hsf, hnb⟩
  | step w p _ hp hnb hsf ih =>
    exact ⟨UReach.step w p ih.1 hp (List.not_mem_nil p) hsf, hnb⟩

theorem ureach_block (g : Cache) (starts b2 : List String)
    (hclosed : ∀ v p, v ∈ b2 → p ∈ (g v).parents → (g p).is_stable = false → p ∈ b2)
    (u : String) (h : UReach g starts [] u) (hnb : u ∉ b2) : UReach g starts b2 u := by
  induction h with
  | start w hs _ hsf =>
    exact UReach.start w hs hnb hsf
  | step w p hw hp _ hsf ih =>
    by_cases hwb : w ∈ b2
    · exact absurd (hclosed w p hwb hp hsf) hnb
    · exact UReach.step w p (ih hwb) hp hnb hsf

theorem desc_run_vis_mono (g : Cache) :
    ∀ (fuel : Nat) (q v : List String), ∀ x ∈ v, x ∈ (desc_run g fuel q v).1 := by
  intro fuel
  induction fuel with
  | zero =>
    intro q v x hx
    simpa [desc_run] using hx
  | succ fuel ih =>
    intro q v x hx
    cases q with
    | nil => simpa [desc_run] using hx
    | cons u queue =>
      have hstep : desc_run g (fuel + 1) (u :: queue) v
          = desc_run g fuel ((g u).children.foldl visit_push (queue, v)).1
              ((g u).children.foldl visit_push (queue, v)).2 := by
        simp only [desc_run]
      rw [hstep]
      exact ih _ _ x (visit_push_vis_mono (g u).children queue v x hx)

theorem desc_run_processed (g : Cache) :
    ∀ (fuel : Nat) (q v : List String),
      (desc_run g fuel q v).2 = [] →
      ∀ u ∈ q, ∀ c ∈ (g u).children, c ∈ (desc_run g fuel q v).1 := by
  intro fuel
  induction fuel with
  | zero =>
    intro q v hq u hu
    simp only [desc_run] at hq
    rw [hq] at hu
    cases hu
  | succ fuel ih =>
    intro q v hq u hu c hc
    cases q with
    | nil => cases hu
    | cons u0 queue =>
      have hstep : desc_run g (fuel + 1) (u0 :: queue) v
          = desc_run g fuel ((g u0).children.foldl visit_push (queue, v)).1
              ((g u0).children.foldl visit_push (queue, v)).2 := by
        simp only [desc_run]
      rw [hstep] at hq ⊢
      rcases List.mem_cons.mp hu with rfl | hu
      · exact desc_run_vis_mono g fuel _ _ c
          (visit_push_mem_vis (g u).children queue v c hc)
      · refine ih _ _ hq u ?_ c hc
        rcases visit_push_queue_prefix (g u0).children queue v with ⟨t, ht⟩
        rw [ht]
        exact List.mem_append_left t hu

theorem desc_run_ve (g : Cache) :
    ∀ (fuel : Nat) (q v : List String),
      (desc_run g fuel q v).2 = [] →
      (∀ x ∈ v, x ∈ q ∨ ∀ c ∈ (g x).children, c ∈ (desc_run g fuel q v).1) →
      ∀ x ∈ (desc_run g fuel q v).1, ∀ c ∈ (g x).children, c ∈ (desc_run g fuel q v).1 := by
  intro fuel
  induction fuel with
  | zero =>
    intro q v hq hv x hx c hc
    simp only [desc_run] at hq hv hx ⊢
    rcases hv x hx with h | h
    · rw [hq] at h
      cases h
    · exact h c hc
  | succ fuel ih =>
    intro q v hq hv x hx c hc
    cases q with
    | nil =>
      simp only [desc_run] at hq hv hx ⊢
      rcases hv x hx with h | h
      · cases h
      · exact h c hc
    | cons u0 queue =>
      have hstep : desc_run g (fuel + 1) (u0 :: queue) v
          = desc_run g fuel ((g u0).children.foldl visit_push (queue, v)).1
              ((g u0).children.foldl visit_push (queue, v)).2 := by
        simp only [desc_run]
      rw [hstep] at hq hv hx ⊢
      refine ih _ _ hq ?_ x hx c hc
      intro y hy
      rcases visit_push_vis_src (g u0).children queue v y hy with h | h
      · rcases hv y h with h2 | h2
        · rcases List.mem_cons.mp h2 with rfl | h2
          · refine Or.inr ?_
            intro c2 hc2
            exact desc_run_vis_mono g fuel _ _ c2
              (visit_push_mem_vis (g y).children queue v c2 hc2)
          · refine Or.inl ?_
            rcases visit_push_queue_prefix (g u0).children queue v with ⟨t, ht⟩
            rw [ht]
            exact List.mem_append_left t h2
        · exact Or.inr h2
      · exact Or.inl h

theorem desc_run_sound (g : Cache) (P : String) :
    ∀ (fuel : Nat) (q v : List String),
      (∀ x ∈ q, x = P ∨ DescReach g P x) →
      (∀ x ∈ v, DescReach g P x) →
      ∀ x ∈ (desc_run g fuel q v).1, DescReach g P x := by
  intro fuel
  induction fuel with
  | zero =>
    intro q v _ hv x hx
    simp only [desc_run] at hx
    exact hv x hx
  | succ fuel ih =>
    intro q v hq hv x hx
    cases q with
    | nil =>
      simp only [desc_run] at hx
      exact hv x hx
    | cons u0 queue =>
      have hstep : desc_run g (fuel + 1) (u0 :: queue) v
          = desc_run g fuel ((g u0).children.foldl visit_push (queue, v)).1
              ((g u0).children.foldl visit_push (queue, v)).2 := by
        simp only [desc_run]
      rw [hstep] at hx
      have hchild : ∀ c ∈ (g u0).children, DescReach g P c := by
        intro c hc
        rcases hq u0 (List.mem_cons_self _ _) with h | h
        · rw [h] at hc
          exact DescReach.child c hc
        · exact DescReach.step u0 c h hc
      refine ih _ _ ?_ ?_ x hx
      · intro y hy
        rcases visit_push_queue_src (g u0).children queue v y hy with h | h
        · exact hq y (List.mem_cons_of_mem _ h)
        · exact Or.inr (hchild y h)
      · intro y hy
        rcases visit_push_vis_from (g u0).children queue v y hy with h | h
        · exact hv y h
        · exact hchild y h

theorem desc_spec (g : Cache) (fuel : Nat) (P : String)
    (hdrain : (get_descendant_units g fuel P).2 = []) :
    ∀ u, u ∈ (get_descendant_units g fuel P).1 ↔ DescReach g P u := by
  simp only [get_descendant_units] at hdrain ⊢
  intro u
  constructor
  · intro hu
    refine desc_run_sound g P fuel [P] [] ?_ ?_ u hu
    · intro y hy
      rcases List.mem_singleton.mp hy with rfl
      exact Or.inl rfl
    · intro y hy
      cases hy
  · intro hu
    induction hu with
    | child c hc =>
      exact desc_run_processed g fuel [P] [] hdrain P (List.mem_singleton_self P) c hc
    | step w c hw hc ih =>
      refine desc_run_ve g fuel [P] [] hdrain ?_ w ih c hc
      intro y hy
      cases hy

/-- **C5** — For every unstable joint P, `is_unstable_joint_non_serial P`
returns true iff some unit U that is an unstable ancestor of the current
free joints, is not an unstable ancestor of P, and is not a descendant
of P, shares an author address with P and has sequence ≠ FinalBad; and
whenever the detector fires, `validate_unstable_joint` returns the
sequence NonserialBad (with the tentative sub-ledger untouched).  The
hypotheses state that the three BFS loops ran to completion within the
given fuel (their queues drained), which is how the Rust `while let`
loops exit. -/
theorem C5_non_serial_iff {S : Type} (ops : SubOps S) (g : Cache)
    (free_joints : List String) (fuel : Nat) (P : String) (temp : S)
    (h1 : (get_unstable_ancestor_units g fuel [P] []).2 = [])
    (h2 : (get_unstable_ancestor_units g fuel free_joints
            (get_unstable_ancestor_units g fuel [P] []).1).2 = [])
    (h3 : (g P).children.isEmpty = false → (get_descendant_units g fuel P).2 = []) :
    (is_unstable_joint_non_serial g free_joints fuel P = true ↔
      ∃ u, UReach g free_joints [] u ∧ ¬ UReach g [P] [] u ∧ ¬ DescReach g P u ∧
        is_authored_by_any_addr (g u) (g P).authors = true ∧
        (g u).sequence ≠ JointSequence.FinalBad)
    ∧ (is_unstable_joint_non_serial g free_joints fuel P = true →
        validate_unstable_joint ops g free_joints fuel temp P
          = some (JointSequence.NonserialBad, temp)) := by
  have hA2 := gua_spec g fuel [P] [] h1
  have hA2closed : ∀ v p, v ∈ (get_unstable_ancestor_units g fuel [P] []).1 →
      p ∈ (g v).parents → (g p).is_stable = false →
      p ∈ (get_unstable_ancestor_units g fuel [P] []).1 := by
    intro v p hv hp hs
    exact (hA2 p).mpr (UReach.step v p ((hA2 v).mp hv) hp (List.not_mem_nil p) hs)
  have hNoSee := gua_spec g fuel free_joints
    (get_unstable_ancestor_units g fuel [P] []).1 h2
  have hmem : ∀ u, u ∈ (get_unstable_ancestor_units g fuel free_joints
      (get_unstable_ancestor_units g fuel [P] []).1).1 ↔
      (UReach g free_joints [] u ∧ ¬ UReach g [P] [] u) := by
    intro u
    rw [hNoSee u]
    constructor
    · intro h
      rcases ureach_unblock g free_joints _ u h with ⟨ha, hb⟩
      exact ⟨ha, fun hc => hb ((hA2 u).mpr hc)⟩
    · rintro ⟨hu, hnp⟩
      exact ureach_block g free_joints _ hA2closed u hu (fun hc => hnp ((hA2 u).mp hc))
  have hdesc : ∀ u, (u ∈ (if (g P).children.isEmpty then [] else
      (get_descendant_units g fuel P).1) ↔ DescReach g P u) := by
    intro u
    by_cases hemp : (g P).children.isEmpty = true
    · rw [if_pos hemp]
      have hempty : (g P).children = [] := by
        simpa using hemp
      constructor
      · intro h
        cases h
      · intro hd
        exfalso
        induction hd with
        | child c hc =>
          rw [hempty] at hc
          exact absurd hc (List.not_mem_nil c)
        | step w c hw hc ih => exact ih
    · have hemp2 : (g P).children.isEmpty = false := by
        simpa using hemp
      rw [if_neg hemp]
      exact desc_spec g fuel P (h3 hemp2) u
  constructor
  · simp only [is_unstable_joint_non_serial]
    constructor
    · intro h
      rcases List.any_eq_true.mp h with ⟨u, hu, hpred⟩
      rcases List.mem_filter.mp hu with ⟨hu1, hu2⟩
      rcases (hmem u).mp hu1 with ⟨ha, hb⟩
      have hcont : (if (g P).children.isEmpty then [] else
          (get_descendant_units g fuel P).1).contains u = false := by
        rw [Bool.not_eq_true'] at hu2
        exact hu2
      have hnd : ¬ DescReach g P u := by
        intro hd
        have hmem2 := (str_contains_iff _ u).mpr ((hdesc u).mpr hd)
        rw [hcont] at hmem2
        exact Bool.false_ne_true hmem2
      rw [Bool.and_eq_true] at hpred
      rcases hpred with ⟨hauth, hseq⟩
      refine ⟨u, ha, hb, hnd, hauth, ?_⟩
      simpa using hseq
    · rintro ⟨u, ha, hb, hnd, hauth, hseq⟩
      refine List.any_eq_true.mpr ⟨u, ?_, ?_⟩
      · refine List.mem_filter.mpr ⟨(hmem u).mpr ⟨ha, hb⟩, ?_⟩
        have hcont : (if (g P).children.isEmpty then [] else
            (get_descendant_units g fuel P).1).contains u = false := by
          by_cases hc : (if (g P).children.isEmpty then [] else
              (get_descendant_units g fuel P).1).contains u = true
          · exact absurd ((hdesc u).mp ((str_contains_iff _ u).mp hc)) hnd
          · simpa using hc
        rw [Bool.not_eq_true']
        exact hcont
      · rw [Bool.and_eq_true]
        refine ⟨hauth, ?_⟩
        simpa using hseq
  · intro hns
    simp only [validate_unstable_joint, validate_unstable_joint_serial, hns]
    rfl

/-- A double-spend cache for the C5 witness: "P" and "u" share author
"A" and both descend from the stable unit "s"; the free joint "f"
includes both, so "u" is an unstable ancestor of the free joints that P
neither includes nor is included by. -/
def gC5 : Cache := fun h =>
  if h = "P" then
    { baseUnit h with
      parents := ["s"], children := ["f"], authors := ["A"] }
  else if h = "u" then
    { baseUnit h with
      parents := ["s"], children := ["f"], authors := ["A"] }
  else if h = "f" then
    { baseUnit h with
      parents := ["u", "P"], authors := ["B"] }
  else if h = "s" then { baseUnit h with is_stable := true }
  else baseUnit h

/-- Trivial sub-ledger operations for the C5 witness. -/
def opsC5 : SubOps Int :=
  { validateMsg := fun _ _ _ => true,
    applyMsg := fun s _ _ => some s,
    revertMsg := fun s _ _ => some s }

theorem C5_non_serial_iff_witness :
    (∃ u, UReach gC5 ["f"] [] u ∧ ¬ UReach gC5 ["P"] [] u ∧ ¬ DescReach gC5 "P" u ∧
      is_authored_by_any_addr (gC5 u) (gC5 "P").authors = true ∧
      (gC5 u).sequence ≠ JointSequence.FinalBad)
    ∧ validate_unstable_joint opsC5 gC5 ["f"] 8 (0 : Int) "P"
        = some (JointSequence.NonserialBad, 0) := by
  have h := C5_non_serial_iff opsC5 gC5 ["f"] 8 "P" 0 (by decide) (by decide)
    (fun _ => by decide)
  exact ⟨h.1.mp (by decide), h.2 (by decide)⟩
